import Mathlib

set_option maxHeartbeats 1000000
set_option maxRecDepth 100000

/-!
Shallow embedding of the "button machine" optimizer (the day-10 module of the
repository).  A `Machine` is the parsed form of one input line: a boolean light
target, a list of buttons (each a list of affected indices) and an integer
joltage target.  The two solvers are translated from the source:

* `solveMachineLights` — Gaussian elimination over GF(2) followed by
  enumeration of the free variables (source function `solveMachineLights`);
* `solveRecursiveM` / `solveMachineJoltage` — the memoized parity-reduction
  recursion (source functions `solveRecursive` / `solveMachineJoltage`).
  The source recursion carries no explicit bound; the embedding adds a fuel
  argument so that the function is structurally recursive, and
  `solveMachineJoltage` supplies fuel that is proved sufficient
  (`sumNat joltage + 1`; each recursion level strictly decreases the sum of
  the target vector).  `solveRecursiveP` is the same recursion without the
  memo table, used to state the memoization-equivalence claim.

Machine integers are modelled as `Int`/`Nat` (JavaScript numbers in the
reachable range behave as exact integers here); the JavaScript expression
`t & 1` on an integer agrees with `Int.emod t 2` (two's complement last bit),
and the divisions performed are divisions of checked even non-negative values.
-/

structure Machine where
  target : List Bool
  buttons : List (List Nat)
  joltage : List Int
deriving DecidableEq, Repr

/-- `machine.buttons[b].includes(i)` from the source. -/
def touches (m : Machine) (b i : Nat) : Bool := (m.buttons.getD b []).contains i

/-! ## Part 2: parity-reduction solver -/

/-- The parity mask of a target vector: bit `i` is set iff `tgt[i]` is odd
(source: the `parity |= 1 << i` loop in `solveRecursive`; `t & 1` on a
JavaScript integer is its two's-complement last bit, i.e. `t % 2` with `%`
Lean's `Int.emod`). -/
def parityOf (tgt : List Int) : Nat :=
  (List.range tgt.length).foldl
    (fun p i => if tgt.getD i 0 % 2 = 1 then p ||| (1 <<< i) else p) 0

/-- The button-count loop shared by `computeParity` and `applyPattern` in the
source: how many `pattern`-selected buttons touch counter `j`. -/
def contribution (m : Machine) (pattern : Nat) (j : Nat) : Nat :=
  (List.range m.buttons.length).countP
    (fun b => pattern.testBit b && touches m b j)

/-- Source function `computeParity`: the parity vector over `numCounters`
counters produced by pressing once every button selected by `buttonMask`. -/
def computeParity (buttonMask : Nat) (m : Machine) (numCounters : Nat) : Nat :=
  (List.range numCounters).foldl
    (fun p j => if contribution m buttonMask j % 2 = 1 then p ||| (1 <<< j) else p) 0

/-- Source function `precomputeParityPatterns`, read off at one parity value:
the masks `0 ≤ mask < 2^B` whose parity vector is `parity`, in increasing
order (the insertion order of the grouping loop).  `Map.get` returning
`undefined` corresponds to the empty list. -/
def patternsFor (m : Machine) (parity : Nat) : List Nat :=
  (List.range (2 ^ m.buttons.length)).filter
    (fun mask => computeParity mask m m.joltage.length == parity)

/-- Helper for `applyPattern`, recursing over the list of counter indices. -/
def applyPatternAux (m : Machine) (pattern : Nat) (target : List Int) :
    List Nat → Option (List Int)
  | [] => some []
  | j :: js =>
    let newVal := target.getD j 0 - (contribution m pattern j : Int)
    if newVal < 0 ∨ newVal % 2 = 1 then none
    else
      match applyPatternAux m pattern target js with
      | none => none
      | some rest => some (newVal / 2 :: rest)

/-- Source function `applyPattern`: subtract the pattern's contribution from
every counter; fail if any entry would go negative or stay odd; halve. -/
def applyPattern (pattern : Nat) (target : List Int) (m : Machine) :
    Option (List Int) :=
  applyPatternAux m pattern target (List.range target.length)

/-- Source function `countBits` (a `while (n > 0)` loop); the embedding uses
`n` itself as structural fuel, which suffices because `n / 2 < n`. -/
def countBitsAux : Nat → Nat → Nat
  | 0, _ => 0
  | fuel + 1, n => if n = 0 then 0 else n % 2 + countBitsAux fuel (n / 2)

def countBits (n : Nat) : Nat := countBitsAux n n

/-- Source function `combineSolution`: `presses[b] = 2*sub[b] + pattern bit`. -/
def combineSolution (pattern : Nat) (subSolution : List Int) : List Int :=
  (List.range subSolution.length).map (fun b =>
    if pattern.testBit b then subSolution.getD b 0 * 2 + 1
    else subSolution.getD b 0 * 2)

/-- The source's `Result` record: both fields `null` signals Unsolvable. -/
structure Result where
  cost : Option Int
  solution : Option (List Int)
deriving DecidableEq, Repr

/-- The body of the `for (const pattern of patterns)` loop of
`solveRecursive`, abstracted over the recursive call `recur`: running best
result in, updated best result out. -/
def foldStep (m : Machine) (recur : List Int → Result) (tgt : List Int)
    (best : Result) (pat : Nat) : Result :=
  match applyPattern pat tgt m with
  | none => best
  | some nt =>
    let sub := recur nt
    match sub.cost, sub.solution with
    | some sc, some ss =>
      let total : Int := (countBits pat : Int) + 2 * sc
      match best.cost with
      | none => ⟨some total, some (combineSolution pat ss)⟩
      | some bc =>
        if total < bc then ⟨some total, some (combineSolution pat ss)⟩
        else best
    | _, _ => best

/-- One level of `solveRecursive` without the memo table, abstracted over the
recursive call. -/
def stepP (m : Machine) (recur : List Int → Result) (tgt : List Int) : Result :=
  if tgt.all (fun v => v == 0) then
    ⟨some 0, some (List.replicate m.buttons.length 0)⟩
  else
    let pats := patternsFor m (parityOf tgt)
    if pats.isEmpty then ⟨none, none⟩
    else pats.foldl (foldStep m recur tgt) ⟨none, none⟩

/-- The recursion of `solveRecursive` with the memo table removed (used to
state that memoization does not change results). -/
def solveRecursiveP (m : Machine) : Nat → List Int → Result
  | 0, _ => ⟨none, none⟩
  | fuel + 1, tgt => stepP m (fun nt => solveRecursiveP m fuel nt) tgt

/-- The memo table: an association list standing for the source's
`Map<string, Result>`.  The source key is `tgt.join(',')`, which is injective
on integer vectors, so the embedding keys directly by the vector. -/
abbrev Memo := List (List Int × Result)

def memoFind (memo : Memo) (key : List Int) : Option Result :=
  (memo.find? (fun e => e.fst == key)).map (fun e => e.snd)

/-- The pattern-loop body of the memoized `solveRecursive`: like `foldStep`,
but the recursive call threads the memo table, which is updated even when the
sub-result is discarded (the source mutates the shared `Map` in place). -/
def foldStepM (m : Machine) (recur : List Int → Memo → Result × Memo) (tgt : List Int)
    (acc : Result × Memo) (pat : Nat) : Result × Memo :=
  match applyPattern pat tgt m with
  | none => acc
  | some nt =>
    let sub := recur nt acc.snd
    match sub.fst.cost, sub.fst.solution with
    | some sc, some ss =>
      let total : Int := (countBits pat : Int) + 2 * sc
      match acc.fst.cost with
      | none => (⟨some total, some (combineSolution pat ss)⟩, sub.snd)
      | some bc =>
        if total < bc then (⟨some total, some (combineSolution pat ss)⟩, sub.snd)
        else (acc.fst, sub.snd)
    | _, _ => (acc.fst, sub.snd)

/-- Source function `solveRecursive`, memo table threaded explicitly.  The
all-zero base case precedes the memo lookup, as in the source; every return
path below the base case stores its result under the current target. -/
def solveRecursiveM (m : Machine) : Nat → List Int → Memo → Result × Memo
  | 0, _, memo => (⟨none, none⟩, memo)
  | fuel + 1, tgt, memo =>
    if tgt.all (fun v => v == 0) then
      (⟨some 0, some (List.replicate m.buttons.length 0)⟩, memo)
    else
      match memoFind memo tgt with
      | some r => (r, memo)
      | none =>
        let pats := patternsFor m (parityOf tgt)
        if pats.isEmpty then (⟨none, none⟩, (tgt, (⟨none, none⟩ : Result)) :: memo)
        else
          let acc := pats.foldl
            (foldStepM m (fun nt mem => solveRecursiveM m fuel nt mem) tgt)
            ((⟨none, none⟩ : Result), memo)
          (acc.fst, (tgt, acc.fst) :: acc.snd)

/-- Sum of the non-negative parts of a target vector; fuel measure for the
recursion (each recursive call strictly decreases it). -/
def sumNat (tgt : List Int) : Nat := (tgt.map Int.toNat).sum

def fuelFor (m : Machine) : Nat := sumNat m.joltage + 1

/-- Source function `solveMachineJoltage`: zero counters are trivially solved
by the all-zero press vector; otherwise run the memoized recursion on the
joltage target with a fresh memo table and return its solution field. -/
def solveMachineJoltage (m : Machine) : Option (List Int) :=
  if m.joltage.length = 0 then some (List.replicate m.buttons.length 0)
  else ((solveRecursiveM m (fuelFor m) m.joltage []).fst).solution

/-- The loop body of `solvePart2`: add the machine's total presses, or throw
on an unsolvable machine. -/
def part2Step (total : Int) (mach : Machine) : Except String Int :=
  match solveMachineJoltage mach with
  | none => Except.error "No solution found for a machine (joltage)"
  | some sol => Except.ok (total + sol.sum)

/-- Source function `solvePart2`: sum each machine's total presses, throwing
on the first unsolvable machine. -/
def solvePart2 (machines : List Machine) : Except String Int :=
  machines.foldlM part2Step 0

/-! ## Part 1: GF(2) toggle solver -/

/-- The augmented matrix `[A | b]` of `solveMachineLights`: row `i` holds
`buttons[j].includes(i)` for `j < B` followed by `target[i]`. -/
def buildMatrix (m : Machine) : List (List Bool) :=
  (List.range m.target.length).map (fun i =>
    ((List.range m.buttons.length).map (fun j => touches m j i))
      ++ [m.target.getD i false])

structure ElimState where
  matrix : List (List Bool)
  rank : Nat
  pivotCol : List Nat
deriving DecidableEq, Repr

/-- The pivot search of the elimination loop: first row in `[rank, L)` with a
one in `col`. -/
def findPivot (mat : List (List Bool)) (col rank numLights : Nat) : Option Nat :=
  (List.range' rank (numLights - rank)).find? (fun row => (mat.getD row []).getD col false)

/-- `[matrix[rank], matrix[pivotRow]] = [matrix[pivotRow], matrix[rank]]`. -/
def swapRows (mat : List (List Bool)) (a b : Nat) : List (List Bool) :=
  let ra := mat.getD a []
  let rb := mat.getD b []
  (mat.set a rb).set b ra

/-- The inner elimination loop: XOR the pivot row into every other row that
has a one in `col`.  Each row's update reads only that row and the pivot row
(which the loop never modifies), so the row-by-row mutation of the source is
rendered as an independent per-row map. -/
def elimOthers (mat : List (List Bool)) (rank col : Nat) : List (List Bool) :=
  let piv := mat.getD rank []
  (List.range mat.length).map (fun row =>
    let r := mat.getD row []
    if row ≠ rank ∧ r.getD col false then r.zipWith (fun a b => a != b) piv else r)

/-- One iteration of the column loop of the source's Gaussian elimination. -/
def elimCol (numLights : Nat) (st : ElimState) (col : Nat) : ElimState :=
  match findPivot st.matrix col st.rank numLights with
  | none => st
  | some pivotRow =>
    let m1 := swapRows st.matrix st.rank pivotRow
    let m2 := elimOthers m1 st.rank col
    ⟨m2, st.rank + 1, st.pivotCol ++ [col]⟩

/-- The full elimination loop (`for col` with the `rank < numLights` guard). -/
def gaussElim (m : Machine) : ElimState :=
  (List.range m.buttons.length).foldl
    (fun st col => if st.rank < m.target.length then elimCol m.target.length st col else st)
    ⟨buildMatrix m, 0, []⟩

/-- `new Array(numButtons).fill(false)` with the free variables set from the
bits of `mask`. -/
def initSolution (numButtons : Nat) (freeVars : List Nat) (mask : Nat) : List Bool :=
  (List.range freeVars.length).foldl
    (fun sol i => sol.set (freeVars.getD i 0) (mask.testBit i))
    (List.replicate numButtons false)

/-- The inner loop of back substitution: the pivot variable's value, starting
from the augmented entry and flipping once per set column to its right. -/
def pivotValue (row sol : List Bool) (col numButtons : Nat) : Bool :=
  (List.range' (col + 1) (numButtons - (col + 1))).foldl
    (fun v c => if row.getD c false && sol.getD c false then !v else v)
    (row.getD numButtons false)

/-- Back substitution, processing pivot rows `r-1, …, 0`. -/
def backSubst (mat : List (List Bool)) (numButtons : Nat) (pivotCol : List Nat) :
    Nat → List Bool → List Bool
  | 0, sol => sol
  | r + 1, sol =>
    let row := mat.getD r []
    let col := pivotCol.getD r 0
    backSubst mat numButtons pivotCol r (sol.set col (pivotValue row sol col numButtons))

/-- Columns never chosen as a pivot, in increasing order. -/
def freeVarsOf (numButtons : Nat) (pivotCol : List Nat) : List Nat :=
  (List.range numButtons).filter (fun c => ! pivotCol.contains c)

/-- The complete candidate solution enumerated for one free-variable mask. -/
def maskSolution (mat : List (List Bool)) (numButtons rank : Nat)
    (pivotCol freeVars : List Nat) (mask : Nat) : List Bool :=
  backSubst mat numButtons pivotCol rank (initSolution numButtons freeVars mask)

/-- Source function `solveMachineLights`.  The `weights.min?` is always
`some` (there is at least the all-zero free mask); the `none` arm mirrors the
unreachable `Infinity` of the source. -/
def solveMachineLights (m : Machine) : Int :=
  let numLights := m.target.length
  let numButtons := m.buttons.length
  let st := gaussElim m
  if (List.range' st.rank (numLights - st.rank)).any
      (fun row => (st.matrix.getD row []).getD numButtons false) then -1
  else
    let freeVars := freeVarsOf numButtons st.pivotCol
    let weights := (List.range (2 ^ freeVars.length)).map
      (fun mask => (maskSolution st.matrix numButtons st.rank st.pivotCol freeVars mask).countP id)
    match weights.min? with
    | some w => (w : Int)
    | none => -1

/-- The loop body of `solvePart1`. -/
def part1Step (total : Int) (mach : Machine) : Except String Int :=
  let presses := solveMachineLights mach
  if presses = -1 then Except.error "No solution found for a machine (lights)"
  else Except.ok (total + presses)

/-- Source function `solvePart1`. -/
def solvePart1 (machines : List Machine) : Except String Int :=
  machines.foldlM part1Step 0

/-! ## Parser -/

/-- `input.split('\n')`. -/
def splitLines : List Char → List (List Char)
  | [] => [[]]
  | c :: rest =>
    match splitLines rest with
    | [] => [[]]
    | l :: ls => if c = '\n' then [] :: l :: ls else (c :: l) :: ls

/-- `line.trim()`. -/
def trimChars (cs : List Char) : List Char :=
  ((cs.dropWhile Char.isWhitespace).reverse.dropWhile Char.isWhitespace).reverse

def isPatternChar (c : Char) : Bool := c == '.' || c == '#'

def isDigitComma (c : Char) : Bool := c.isDigit || c == ','

/-- `line.match(/\[([.#]+)\]/)`: the leftmost bracketed nonempty run of
pattern characters.  Because `]` is not in the character class, the greedy
run needs no backtracking. -/
def findBracketPattern : List Char → Option (List Char)
  | [] => none
  | c :: rest =>
    if c = '[' then
      let run := rest.takeWhile isPatternChar
      if run.length > 0 && (rest.drop run.length).headD ' ' == ']' then some run
      else findBracketPattern rest
    else findBracketPattern rest

/-- `line.matchAll(/\(([0-9,]+)\)/g)`.  After a successful match the scan may
resume one character later instead of after the group: no `(` occurs inside a
matched group, so the next match found is the same. -/
def findParenGroups : List Char → List (List Char)
  | [] => []
  | c :: rest =>
    if c = '(' then
      let run := rest.takeWhile isDigitComma
      if run.length > 0 && (rest.drop run.length).headD ' ' == ')' then
        run :: findParenGroups rest
      else findParenGroups rest
    else findParenGroups rest

/-- `line.match(/\{([0-9,]+)\}/)`. -/
def findBraceGroup : List Char → Option (List Char)
  | [] => none
  | c :: rest =>
    if c = '\x7b' then
      let run := rest.takeWhile isDigitComma
      if run.length > 0 && (rest.drop run.length).headD ' ' == '\x7d' then some run
      else findBraceGroup rest
    else findBraceGroup rest

/-- `s.split(',')`. -/
def splitComma : List Char → List (List Char)
  | [] => [[]]
  | c :: rest =>
    match splitComma rest with
    | [] => [[]]
    | p :: ps => if c = ',' then [] :: p :: ps else (c :: p) :: ps

/-- JavaScript `Number` on the pieces cut from a `[0-9,]+` group: every piece
is a (possibly empty) digit string, and `Number('') = 0` matches the fold's
base case. -/
def digitsToNat (cs : List Char) : Nat :=
  cs.foldl (fun a c => a * 10 + (c.toNat - 48)) 0

/-- One iteration of the parse loop of `parseInput`. -/
def parseLine (line : List Char) : Except String Machine :=
  match findBracketPattern line with
  | none => Except.error ("Invalid pattern: " ++ String.mk line)
  | some pat =>
    let target := pat.map (fun ch => ch == '#')
    let buttons := (findParenGroups line).map (fun g => (splitComma g).map digitsToNat)
    let joltage : List Int :=
      match findBraceGroup line with
      | some j => (splitComma j).map (fun p => (digitsToNat p : Int))
      | none => []
    Except.ok ⟨target, buttons, joltage⟩

/-- Source function `parseInput`: split into lines, trim, drop empties, parse
each line, throwing on the first line without a light pattern. -/
def parseInput (input : String) : Except String (List Machine) :=
  (((splitLines input.toList).map trimChars).filter (fun l => l.length > 0)).mapM
    (fun l => parseLine l)

/-! ## Specification-side semantics -/

/-- Sum of presses of buttons touching counter `i`. -/
def counterSum (m : Machine) (p : List Int) (i : Nat) : Int :=
  (((List.range m.buttons.length).filter (fun b => touches m b i)).map
    (fun b => p.getD b 0)).sum

/-- The additive press-vector constraint of the joltage sub-problem: `p` has
one non-negative entry per button and meets every counter's target exactly. -/
def JoltValid (m : Machine) (p : List Int) : Prop :=
  p.length = m.buttons.length ∧ (∀ v ∈ p, 0 ≤ v) ∧
    ∀ i < m.joltage.length, counterSum m p i = m.joltage.getD i 0

/-- The toggle constraint of the lights sub-problem: for every light, the
number of pressed buttons touching it has the parity demanded by the target. -/
def LightsValid (m : Machine) (x : List Bool) : Prop :=
  ∀ i < m.target.length,
    ((List.range m.buttons.length).countP (fun j => x.getD j false && touches m j i)) % 2
      = (if m.target.getD i false then 1 else 0)

/-! ## Basic list and bit helpers -/

lemma getD_range_map {α : Type _} (f : Nat → α) (n i : Nat) (d : α) (h : i < n) :
    ((List.range n).map f).getD i d = f i := by
  simp [List.getD_eq_getElem?_getD, List.getElem?_map, List.getElem?_range h]

lemma getD_replicate {α : Type _} (n i : Nat) (a d : α) (h : i < n) :
    (List.replicate n a).getD i d = a := by
  simp [List.getD_eq_getElem?_getD, List.getElem?_replicate, h]

lemma getD_set_self {α : Type _} (l : List α) (i : Nat) (a d : α) (h : i < l.length) :
    (l.set i a).getD i d = a := by
  simp [List.getD_eq_getElem?_getD, List.getElem?_set_self h]

lemma getD_set_ne {α : Type _} (l : List α) (i j : Nat) (a d : α) (h : i ≠ j) :
    (l.set i a).getD j d = l.getD j d := by
  simp [List.getD_eq_getElem?_getD, List.getElem?_set_ne h]

lemma sum_map_getD {M : Type _} [AddCommMonoid M] {α : Type _} (f : α → M) (l : List α) (d : α) :
    (l.map f).sum = ∑ j ∈ Finset.range l.length, f (l.getD j d) := by
  induction l with
  | nil => simp
  | cons a t ih =>
    simp only [List.map_cons, List.sum_cons, List.length_cons, Finset.sum_range_succ']
    rw [ih]
    simp only [List.getD_cons_succ, List.getD_cons_zero]
    exact (add_comm _ _)

lemma testBit_one' (k : Nat) : Nat.testBit 1 k = decide (k = 0) := by
  cases k with
  | zero => simp [Nat.testBit_zero]
  | succ k => simp [Nat.testBit_succ, Nat.zero_testBit]

lemma testBit_one_shiftLeft (a j : Nat) : ((1 <<< a : Nat)).testBit j = decide (a = j) := by
  rw [Nat.testBit_shiftLeft, testBit_one']
  rcases Nat.lt_trichotomy j a with h | h | h
  · simp [Nat.not_le.mpr h]
    omega
  · subst h; simp
  · have : j - a ≠ 0 := by omega
    simp [this]
    omega

lemma testBit_foldl_set (l : List Nat) (cnd : Nat → Prop) [DecidablePred cnd] (init j : Nat) :
    (l.foldl (fun p i => if cnd i then p ||| (1 <<< i) else p) init).testBit j
      = (init.testBit j || (decide (j ∈ l) && decide (cnd j))) := by
  induction l generalizing init with
  | nil => simp
  | cons a t ih =>
    rw [List.foldl_cons, ih]
    by_cases hc : cnd a
    · rw [if_pos hc, Nat.testBit_or, testBit_one_shiftLeft]
      by_cases haj : a = j
      · subst haj; simp [hc]
      · have haj' : j ≠ a := fun h => haj h.symm
        simp [haj, haj', List.mem_cons]
    · rw [if_neg hc]
      by_cases haj : a = j
      · subst haj; simp [hc]
      · have haj' : j ≠ a := fun h => haj h.symm
        simp [haj', List.mem_cons]

lemma parityOf_testBit (tgt : List Int) (j : Nat) :
    (parityOf tgt).testBit j
      = (decide (j < tgt.length) && decide (tgt.getD j 0 % 2 = 1)) := by
  unfold parityOf
  rw [testBit_foldl_set]
  simp [List.mem_range]

lemma computeParity_testBit (m : Machine) (mask nc j : Nat) :
    (computeParity mask m nc).testBit j
      = (decide (j < nc) && decide (contribution m mask j % 2 = 1)) := by
  unfold computeParity
  rw [testBit_foldl_set]
  simp [List.mem_range]

/-! ## Characterization of applyPattern -/

/-- The per-counter success condition of `applyPattern`. -/
def entryOK (m : Machine) (pattern : Nat) (target : List Int) (j : Nat) : Prop :=
  0 ≤ target.getD j 0 - (contribution m pattern j : Int) ∧
    (target.getD j 0 - (contribution m pattern j : Int)) % 2 = 0

/-- The per-counter output of `applyPattern`. -/
def entryVal (m : Machine) (pattern : Nat) (target : List Int) (j : Nat) : Int :=
  (target.getD j 0 - (contribution m pattern j : Int)) / 2

lemma applyPatternAux_eq_some_iff (m : Machine) (pattern : Nat) (target : List Int) :
    ∀ (js : List Nat) (nt : List Int),
      applyPatternAux m pattern target js = some nt ↔
        ((∀ j ∈ js, entryOK m pattern target j) ∧
          nt = js.map (entryVal m pattern target)) := by
  intro js
  induction js with
  | nil => intro nt; simp [applyPatternAux]
  | cons j js ih =>
    intro nt
    simp only [applyPatternAux]
    by_cases hbad : target.getD j 0 - (contribution m pattern j : Int) < 0 ∨
        (target.getD j 0 - (contribution m pattern j : Int)) % 2 = 1
    · rw [if_pos hbad]
      constructor
      · intro h; cases h
      · rintro ⟨hall, -⟩
        have hj := hall j (List.mem_cons_self j js)
        rcases hbad with h | h
        · exact absurd hj.1 (by omega)
        · rw [hj.2] at h; cases h
    · rw [if_neg hbad]
      push_neg at hbad
      have hok : entryOK m pattern target j := by
        refine ⟨by omega, ?_⟩
        rcases Int.emod_two_eq (target.getD j 0 - (contribution m pattern j : Int)) with h | h
        · exact h
        · exact absurd h hbad.2
      cases h : applyPatternAux m pattern target js with
      | none =>
        constructor
        · intro h'; cases h'
        · rintro ⟨hall, hnt⟩
          have : applyPatternAux m pattern target js = some (js.map (entryVal m pattern target)) := by
            rw [ih]
            exact ⟨fun a ha => hall a (List.mem_cons_of_mem _ ha), rfl⟩
          rw [h] at this; cases this
      | some rest =>
        rw [ih] at h
        constructor
        · intro h'
          injection h' with h''
          subst h''
          refine ⟨?_, ?_⟩
          · intro a ha
            rcases List.mem_cons.mp ha with rfl | ha'
            · exact hok
            · exact h.1 a ha'
          · simp only [List.map_cons]
            rw [← h.2]
            rfl
        · rintro ⟨hall, rfl⟩
          simp only [List.map_cons, Option.some.injEq, List.cons.injEq]
          exact ⟨rfl, h.2⟩

lemma applyPattern_eq_some_iff (pattern : Nat) (target : List Int) (m : Machine) (nt : List Int) :
    applyPattern pattern target m = some nt ↔
      ((∀ j < target.length, entryOK m pattern target j) ∧
        nt = (List.range target.length).map (entryVal m pattern target)) := by
  unfold applyPattern
  rw [applyPatternAux_eq_some_iff]
  simp [List.mem_range]

lemma applyPattern_length {pattern : Nat} {target : List Int} {m : Machine} {nt : List Int}
    (h : applyPattern pattern target m = some nt) : nt.length = target.length := by
  rw [applyPattern_eq_some_iff] at h
  rw [h.2]; simp

lemma applyPattern_getD {pattern : Nat} {target : List Int} {m : Machine} {nt : List Int}
    (h : applyPattern pattern target m = some nt) {j : Nat} (hj : j < target.length) :
    nt.getD j 0 = entryVal m pattern target j := by
  rw [applyPattern_eq_some_iff] at h
  rw [h.2, getD_range_map _ _ _ _ hj]

lemma applyPattern_entryOK {pattern : Nat} {target : List Int} {m : Machine} {nt : List Int}
    (h : applyPattern pattern target m = some nt) {j : Nat} (hj : j < target.length) :
    entryOK m pattern target j := by
  rw [applyPattern_eq_some_iff] at h
  exact h.1 j hj

lemma entryVal_mul_two {m : Machine} {pattern : Nat} {target : List Int} {j : Nat}
    (hok : entryOK m pattern target j) :
    2 * entryVal m pattern target j = target.getD j 0 - (contribution m pattern j : Int) := by
  have := Int.ediv_add_emod (target.getD j 0 - (contribution m pattern j : Int)) 2
  rw [hok.2] at this
  unfold entryVal
  omega

lemma entryVal_nonneg {m : Machine} {pattern : Nat} {target : List Int} {j : Nat}
    (hok : entryOK m pattern target j) : 0 ≤ entryVal m pattern target j :=
  Int.ediv_nonneg hok.1 (by norm_num)

/-! ## Fuel measure and the all-zero test -/

lemma sumNat_eq_sum_range (l : List Int) :
    sumNat l = ∑ j ∈ Finset.range l.length, (l.getD j 0).toNat := by
  unfold sumNat
  exact sum_map_getD Int.toNat l 0

lemma all_zero_iff (tgt : List Int) :
    tgt.all (fun v => v == 0) = true ↔ ∀ j < tgt.length, tgt.getD j 0 = 0 := by
  rw [List.all_eq_true]
  constructor
  · intro h j hj
    rw [List.getD_eq_getElem _ _ hj]
    simpa using h _ (List.getElem_mem hj)
  · intro h v hv
    obtain ⟨j, hj, rfl⟩ := List.mem_iff_getElem.mp hv
    have := h j hj
    rw [List.getD_eq_getElem _ _ hj] at this
    simp [this]

lemma applyPattern_target_nonneg {pattern : Nat} {target : List Int} {m : Machine}
    {nt : List Int} (h : applyPattern pattern target m = some nt) :
    ∀ j < target.length, 0 ≤ target.getD j 0 := by
  intro j hj
  have hok := applyPattern_entryOK h hj
  have h1 := hok.1
  have : (0 : Int) ≤ (contribution m pattern j : Int) := Int.ofNat_nonneg _
  omega

lemma applyPattern_sumNat_lt {pattern : Nat} {target : List Int} {m : Machine} {nt : List Int}
    (h : applyPattern pattern target m = some nt)
    (hnz : ¬ target.all (fun v => v == 0) = true) :
    sumNat nt < sumNat target := by
  have hlen := applyPattern_length h
  rw [sumNat_eq_sum_range, sumNat_eq_sum_range, hlen]
  have hnonneg := applyPattern_target_nonneg h
  have hexists : ∃ j < target.length, target.getD j 0 ≠ 0 := by
    by_contra hc
    push_neg at hc
    exact hnz ((all_zero_iff target).mpr hc)
  obtain ⟨j0, hj0, hne⟩ := hexists
  apply Finset.sum_lt_sum
  · intro j hj
    rw [Finset.mem_range] at hj
    have hok := applyPattern_entryOK h hj
    have h2 := entryVal_mul_two hok
    have hgd := applyPattern_getD h hj
    have hc : (0 : Int) ≤ (contribution m pattern j : Int) := Int.ofNat_nonneg _
    rw [hgd]
    omega
  · refine ⟨j0, Finset.mem_range.mpr hj0, ?_⟩
    have hok := applyPattern_entryOK h hj0
    have h2 := entryVal_mul_two hok
    have hgd := applyPattern_getD h hj0
    have hc : (0 : Int) ≤ (contribution m pattern j0 : Int) := Int.ofNat_nonneg _
    have hpos : 0 < target.getD j0 0 := lt_of_le_of_ne (hnonneg j0 hj0) (Ne.symm hne)
    rw [hgd]
    omega

/-! ## countBits and combineSolution -/

lemma countBitsAux_congr : ∀ f1 f2 n : Nat, n ≤ f1 → n ≤ f2 →
    countBitsAux f1 n = countBitsAux f2 n := by
  intro f1
  induction f1 with
  | zero =>
    intro f2 n h1 _
    interval_cases n
    cases f2 <;> simp [countBitsAux]
  | succ f1 ih =>
    intro f2 n h1 h2
    cases f2 with
    | zero =>
      interval_cases n
      simp [countBitsAux]
    | succ f2 =>
      by_cases hn : n = 0
      · simp [countBitsAux, hn]
      · simp only [countBitsAux, if_neg hn]
        have : n / 2 < n := Nat.div_lt_self (Nat.pos_of_ne_zero hn) (by norm_num)
        rw [ih f2 (n / 2) (by omega) (by omega)]

lemma countBits_rec (n : Nat) (hn : n ≠ 0) :
    countBits n = n % 2 + countBits (n / 2) := by
  unfold countBits
  cases n with
  | zero => exact absurd rfl hn
  | succ k =>
    simp only [countBitsAux, if_neg hn]
    congr 1
    exact countBitsAux_congr k ((k + 1) / 2) ((k + 1) / 2) (by omega) le_rfl

lemma countBits_eq_countP : ∀ k pat : Nat, pat < 2 ^ k →
    countBits pat = (List.range k).countP (fun b => pat.testBit b) := by
  intro k
  induction k with
  | zero =>
    intro pat hpat
    interval_cases pat
    simp [countBits, countBitsAux]
  | succ k ih =>
    intro pat hpat
    by_cases hz : pat = 0
    · subst hz
      simp [countBits, countBitsAux, List.countP_eq_length_filter, Nat.zero_testBit]
    · rw [countBits_rec pat hz, List.range_succ_eq_map, List.countP_cons,
        List.countP_map]
      have hdiv : pat / 2 < 2 ^ k := by
        rw [pow_succ] at hpat
        omega
      have := ih (pat / 2) hdiv
      have hcomp : (List.range k).countP ((fun b => pat.testBit b) ∘ Nat.succ)
          = (List.range k).countP (fun b => (pat / 2).testBit b) := by
        apply List.countP_congr
        intro b _
        simp [Function.comp, Nat.testBit_succ]
      rw [hcomp, ← this, Nat.testBit_zero]
      by_cases hodd : pat % 2 = 1
      · simp [hodd]
        omega
      · simp [hodd]
        omega

lemma combineSolution_length (pat : Nat) (ss : List Int) :
    (combineSolution pat ss).length = ss.length := by
  simp [combineSolution]

lemma combineSolution_getD (pat : Nat) (ss : List Int) {b : Nat} (hb : b < ss.length) :
    (combineSolution pat ss).getD b 0
      = (if pat.testBit b then ss.getD b 0 * 2 + 1 else ss.getD b 0 * 2) := by
  unfold combineSolution
  rw [getD_range_map _ _ _ _ hb]

lemma combineSolution_nonneg {pat : Nat} {ss : List Int} (h : ∀ v ∈ ss, 0 ≤ v) :
    ∀ v ∈ combineSolution pat ss, 0 ≤ v := by
  intro v hv
  unfold combineSolution at hv
  obtain ⟨b, hb, rfl⟩ := List.mem_map.mp hv
  rw [List.mem_range] at hb
  have hs : 0 ≤ ss.getD b 0 := by
    have : ss.getD b 0 ∈ ss := by
      rw [List.getD_eq_getElem _ _ hb]
      exact List.getElem_mem hb
    exact h _ this
  by_cases hbit : pat.testBit b
  · rw [if_pos hbit]; omega
  · rw [if_neg hbit]; omega

lemma sum_map_linear (l : List Nat) (f : Nat → Int) (p : Nat → Bool) :
    (l.map (fun b => if p b then f b * 2 + 1 else f b * 2)).sum
      = 2 * (l.map f).sum + (l.countP p : Int) := by
  induction l with
  | nil => simp
  | cons a t ih =>
    simp only [List.map_cons, List.sum_cons, ih, List.countP_cons]
    by_cases hp : p a <;> simp [hp] <;> ring

lemma range_map_getD (l : List Int) :
    (List.range l.length).map (fun b => l.getD b 0) = l := by
  apply List.ext_getElem
  · simp
  · intro i h1 h2
    simp only [List.getElem_map, List.getElem_range]
    exact List.getD_eq_getElem l 0 h2

lemma combineSolution_sum {pat : Nat} {ss : List Int} (hpat : pat < 2 ^ ss.length) :
    (combineSolution pat ss).sum = 2 * ss.sum + (countBits pat : Int) := by
  unfold combineSolution
  rw [sum_map_linear (List.range ss.length) (fun b => ss.getD b 0) (fun b => pat.testBit b),
    countBits_eq_countP ss.length pat hpat, range_map_getD ss]

/-! ## Rewrite equations for the recursion -/

lemma foldStep_none {m : Machine} {recur : List Int → Result} {tgt : List Int}
    {best : Result} {pat : Nat} (happ : applyPattern pat tgt m = none) :
    foldStep m recur tgt best pat = best := by
  simp only [foldStep, happ]

lemma foldStep_subfail {m : Machine} {recur : List Int → Result} {tgt : List Int}
    {best : Result} {pat : Nat} {nt : List Int}
    (happ : applyPattern pat tgt m = some nt)
    (h : (recur nt).cost = none ∨ (recur nt).solution = none) :
    foldStep m recur tgt best pat = best := by
  rcases hc : (recur nt).cost with _ | sc
  · simp only [foldStep, happ, hc]
  · rcases hs : (recur nt).solution with _ | ss
    · simp only [foldStep, happ, hc, hs]
    · rw [hc, hs] at h
      rcases h with h | h <;> cases h

lemma foldStep_update_none {m : Machine} {recur : List Int → Result} {tgt : List Int}
    {best : Result} {pat : Nat} {nt : List Int} {sc : Int} {ss : List Int}
    (happ : applyPattern pat tgt m = some nt)
    (hc : (recur nt).cost = some sc) (hs : (recur nt).solution = some ss)
    (hb : best.cost = none) :
    foldStep m recur tgt best pat
      = ⟨some ((countBits pat : Int) + 2 * sc), some (combineSolution pat ss)⟩ := by
  simp only [foldStep, happ, hc, hs, hb]

lemma foldStep_update_some {m : Machine} {recur : List Int → Result} {tgt : List Int}
    {best : Result} {pat : Nat} {nt : List Int} {sc bc : Int} {ss : List Int}
    (happ : applyPattern pat tgt m = some nt)
    (hc : (recur nt).cost = some sc) (hs : (recur nt).solution = some ss)
    (hb : best.cost = some bc) :
    foldStep m recur tgt best pat
      = if (countBits pat : Int) + 2 * sc < bc then
          ⟨some ((countBits pat : Int) + 2 * sc), some (combineSolution pat ss)⟩
        else best := by
  simp only [foldStep, happ, hc, hs, hb]

lemma stepP_allzero {m : Machine} {recur : List Int → Result} {tgt : List Int}
    (h0 : tgt.all (fun v => v == 0) = true) :
    stepP m recur tgt = ⟨some 0, some (List.replicate m.buttons.length 0)⟩ := by
  simp only [stepP, h0, if_pos]

lemma stepP_empty {m : Machine} {recur : List Int → Result} {tgt : List Int}
    (h0 : ¬ tgt.all (fun v => v == 0) = true)
    (he : patternsFor m (parityOf tgt) = []) :
    stepP m recur tgt = ⟨none, none⟩ := by
  simp only [stepP, h0, if_false, he]
  rfl

lemma stepP_fold {m : Machine} {recur : List Int → Result} {tgt : List Int}
    (h0 : ¬ tgt.all (fun v => v == 0) = true)
    (he : patternsFor m (parityOf tgt) ≠ []) :
    stepP m recur tgt
      = (patternsFor m (parityOf tgt)).foldl (foldStep m recur tgt) ⟨none, none⟩ := by
  have hne : (patternsFor m (parityOf tgt)).isEmpty = false := List.isEmpty_eq_false.mpr he
  simp only [stepP, h0, hne, Bool.false_eq_true, if_false]

lemma solveRecursiveP_succ (m : Machine) (fuel : Nat) (tgt : List Int) :
    solveRecursiveP m (fuel + 1) tgt = stepP m (fun nt => solveRecursiveP m fuel nt) tgt := rfl

lemma solveRecursiveP_zero (m : Machine) (tgt : List Int) :
    solveRecursiveP m 0 tgt = ⟨none, none⟩ := rfl

/-! ## Soundness invariant of the reduction recursion -/

lemma counterSum_replicate_zero (m : Machine) (n : Nat) (i : Nat) :
    counterSum m (List.replicate n 0) i = 0 := by
  unfold counterSum
  have h : ∀ b ∈ (List.range m.buttons.length).filter (fun b => touches m b i),
      (List.replicate n (0 : Int)).getD b 0 = (fun _ => (0 : Int)) b := by
    intro b _
    rw [List.getD_eq_getElem?_getD, List.getElem?_replicate]
    split <;> simp
  rw [List.map_congr_left h]
  simp

lemma counterSum_combineSolution (m : Machine) (pat : Nat) (ss : List Int)
    (hlen : ss.length = m.buttons.length) (i : Nat) :
    counterSum m (combineSolution pat ss) i
      = 2 * counterSum m ss i + (contribution m pat i : Int) := by
  unfold counterSum
  have hmap : ((List.range m.buttons.length).filter (fun b => touches m b i)).map
      (fun b => (combineSolution pat ss).getD b 0)
      = ((List.range m.buttons.length).filter (fun b => touches m b i)).map
        (fun b => if pat.testBit b then ss.getD b 0 * 2 + 1 else ss.getD b 0 * 2) := by
    apply List.map_congr_left
    intro b hb
    have hbB : b < m.buttons.length := by
      rw [List.mem_filter] at hb
      exact List.mem_range.mp hb.1
    exact combineSolution_getD pat ss (by omega)
  rw [hmap, sum_map_linear]
  have hcnt : ((List.range m.buttons.length).filter (fun b => touches m b i)).countP
      (fun b => pat.testBit b) = contribution m pat i := by
    rw [List.countP_filter]
    rfl
  rw [hcnt]

/-- The invariant kept by every `Result` of the recursion: cost and solution
are `null` together, and a returned solution has one non-negative entry per
button, cost equal to its sum, and satisfies the current target exactly. -/
def GoodResult (m : Machine) (tgt : List Int) (r : Result) : Prop :=
  (r.cost = none ↔ r.solution = none) ∧
    ∀ c s, r.cost = some c → r.solution = some s →
      s.length = m.buttons.length ∧ c = s.sum ∧ (∀ v ∈ s, 0 ≤ v) ∧
        ∀ i < tgt.length, counterSum m s i = tgt.getD i 0

lemma goodResult_none (m : Machine) (tgt : List Int) :
    GoodResult m tgt ⟨none, none⟩ := by
  constructor
  · simp
  · intro c s hc _; cases hc

lemma goodResult_base (m : Machine) {tgt : List Int}
    (h0 : ∀ j < tgt.length, tgt.getD j 0 = 0) :
    GoodResult m tgt ⟨some 0, some (List.replicate m.buttons.length 0)⟩ := by
  constructor
  · simp
  · intro c s hc hs
    injection hc with hc; injection hs with hs
    subst hc; subst hs
    refine ⟨by simp, by simp, ?_, ?_⟩
    · intro v hv
      rw [List.eq_of_mem_replicate hv]
    · intro i hi
      rw [counterSum_replicate_zero, h0 i hi]

lemma foldStep_good {m : Machine} {tgt : List Int} {recur : List Int → Result}
    {best : Result} {pat : Nat}
    (hrec : ∀ p nt, applyPattern p tgt m = some nt → GoodResult m nt (recur nt))
    (hpat : pat < 2 ^ m.buttons.length)
    (hbest : GoodResult m tgt best) :
    GoodResult m tgt (foldStep m recur tgt best pat) := by
  rcases happ : applyPattern pat tgt m with _ | nt
  · rw [foldStep_none happ]; exact hbest
  · have hGnt := hrec pat nt happ
    rcases hcost : (recur nt).cost with _ | sc
    · rw [foldStep_subfail happ (Or.inl hcost)]; exact hbest
    · rcases hsol : (recur nt).solution with _ | ss
      · rw [foldStep_subfail happ (Or.inr hsol)]; exact hbest
      · obtain ⟨hslen, hsum, hnn, hsat⟩ := hGnt.2 sc ss hcost hsol
        have hcand : GoodResult m tgt
            ⟨some ((countBits pat : Int) + 2 * sc), some (combineSolution pat ss)⟩ := by
          constructor
          · simp
          · intro c s hc hs
            injection hc with hc; injection hs with hs
            subst hc; subst hs
            refine ⟨by rw [combineSolution_length, hslen], ?_,
              combineSolution_nonneg hnn, ?_⟩
            · rw [combineSolution_sum (by rw [hslen]; exact hpat), hsum]; ring
            · intro i hi
              have hleni : i < nt.length := by rw [applyPattern_length happ]; exact hi
              rw [counterSum_combineSolution m pat ss hslen i]
              have hnti := hsat i hleni
              have hgd := applyPattern_getD happ hi
              have hok := applyPattern_entryOK happ hi
              have h2 := entryVal_mul_two hok
              rw [hnti, hgd]
              omega
        rcases hb : best.cost with _ | bc
        · rw [foldStep_update_none happ hcost hsol hb]; exact hcand
        · rw [foldStep_update_some happ hcost hsol hb]
          by_cases hlt : (countBits pat : Int) + 2 * sc < bc
          · rw [if_pos hlt]; exact hcand
          · rw [if_neg hlt]; exact hbest

lemma patternsFor_mem {m : Machine} {parity : Nat} {pat : Nat}
    (h : pat ∈ patternsFor m parity) :
    pat < 2 ^ m.buttons.length ∧ computeParity pat m m.joltage.length = parity := by
  unfold patternsFor at h
  rw [List.mem_filter] at h
  refine ⟨List.mem_range.mp h.1, ?_⟩
  have := h.2
  simpa using this

lemma foldl_foldStep_good {m : Machine} {tgt : List Int} {recur : List Int → Result}
    (hrec : ∀ p nt, applyPattern p tgt m = some nt → GoodResult m nt (recur nt)) :
    ∀ (pats : List Nat), (∀ pat ∈ pats, pat < 2 ^ m.buttons.length) →
      ∀ best, GoodResult m tgt best →
        GoodResult m tgt (pats.foldl (foldStep m recur tgt) best) := by
  intro pats
  induction pats with
  | nil => intro _ best hbest; exact hbest
  | cons pat pats ih =>
    intro hmem best hbest
    rw [List.foldl_cons]
    exact ih (fun p hp => hmem p (List.mem_cons_of_mem _ hp))
      _ (foldStep_good hrec (hmem pat (List.mem_cons_self _ _)) hbest)

lemma solveRecursiveP_good (m : Machine) :
    ∀ (fuel : Nat) (tgt : List Int), GoodResult m tgt (solveRecursiveP m fuel tgt) := by
  intro fuel
  induction fuel with
  | zero => intro tgt; rw [solveRecursiveP_zero]; exact goodResult_none m tgt
  | succ fuel ih =>
    intro tgt
    rw [solveRecursiveP_succ]
    by_cases h0 : tgt.all (fun v => v == 0) = true
    · rw [stepP_allzero h0]
      exact goodResult_base m ((all_zero_iff tgt).mp h0)
    · by_cases he : patternsFor m (parityOf tgt) = []
      · rw [stepP_empty h0 he]; exact goodResult_none m tgt
      · rw [stepP_fold h0 he]
        exact foldl_foldStep_good (fun p nt happ => ih nt) _
          (fun pat hp => (patternsFor_mem hp).1) _ (goodResult_none m tgt)

/-! ## Fuel congruence: the recursion stabilizes once fuel exceeds the sum -/

lemma foldl_ext {α β : Type _} (f g : β → α → β) (l : List α)
    (h : ∀ b, ∀ a ∈ l, f b a = g b a) : ∀ b, l.foldl f b = l.foldl g b := by
  induction l with
  | nil => intro b; rfl
  | cons a t ih =>
    intro b
    rw [List.foldl_cons, List.foldl_cons, h b a (List.mem_cons_self _ _)]
    exact ih (fun b a ha => h b a (List.mem_cons_of_mem _ ha)) _

lemma foldStep_congr {m : Machine} {tgt : List Int} {recur₁ recur₂ : List Int → Result}
    (h : ∀ pat nt, applyPattern pat tgt m = some nt → recur₁ nt = recur₂ nt) :
    ∀ best pat, foldStep m recur₁ tgt best pat = foldStep m recur₂ tgt best pat := by
  intro best pat
  rcases happ : applyPattern pat tgt m with _ | nt
  · rw [foldStep_none happ, foldStep_none happ]
  · simp only [foldStep, happ, h pat nt happ]

lemma stepP_congr {m : Machine} {tgt : List Int} {recur₁ recur₂ : List Int → Result}
    (h : ∀ pat nt, applyPattern pat tgt m = some nt → recur₁ nt = recur₂ nt) :
    stepP m recur₁ tgt = stepP m recur₂ tgt := by
  by_cases h0 : tgt.all (fun v => v == 0) = true
  · rw [stepP_allzero h0, stepP_allzero h0]
  · by_cases he : patternsFor m (parityOf tgt) = []
    · rw [stepP_empty h0 he, stepP_empty h0 he]
    · rw [stepP_fold h0 he, stepP_fold h0 he]
      exact foldl_ext _ _ _ (fun best pat _ => foldStep_congr h best pat) _

lemma sumNat_zero_entries {tgt : List Int} (hsum : sumNat tgt = 0)
    (hnn : ∀ j < tgt.length, 0 ≤ tgt.getD j 0) :
    ∀ j < tgt.length, tgt.getD j 0 = 0 := by
  intro j hj
  rw [sumNat_eq_sum_range] at hsum
  have := Finset.sum_eq_zero_iff.mp hsum j (Finset.mem_range.mpr hj)
  have := hnn j hj
  omega

lemma solveRecursiveP_congr (m : Machine) :
    ∀ (n f1 f2 : Nat) (tgt : List Int), sumNat tgt ≤ n →
      sumNat tgt + 1 ≤ f1 → sumNat tgt + 1 ≤ f2 →
      solveRecursiveP m f1 tgt = solveRecursiveP m f2 tgt := by
  intro n
  induction n with
  | zero =>
    intro f1 f2 tgt hn h1 h2
    obtain ⟨a, rfl⟩ : ∃ a, f1 = a + 1 := ⟨f1 - 1, by omega⟩
    obtain ⟨b, rfl⟩ : ∃ b, f2 = b + 1 := ⟨f2 - 1, by omega⟩
    rw [solveRecursiveP_succ, solveRecursiveP_succ]
    by_cases h0 : tgt.all (fun v => v == 0) = true
    · rw [stepP_allzero h0, stepP_allzero h0]
    · apply stepP_congr
      intro pat nt happ
      exfalso
      have hz := sumNat_zero_entries (by omega) (applyPattern_target_nonneg happ)
      exact h0 ((all_zero_iff tgt).mpr hz)
  | succ n ih =>
    intro f1 f2 tgt hn h1 h2
    obtain ⟨a, rfl⟩ : ∃ a, f1 = a + 1 := ⟨f1 - 1, by omega⟩
    obtain ⟨b, rfl⟩ : ∃ b, f2 = b + 1 := ⟨f2 - 1, by omega⟩
    rw [solveRecursiveP_succ, solveRecursiveP_succ]
    by_cases h0 : tgt.all (fun v => v == 0) = true
    · rw [stepP_allzero h0, stepP_allzero h0]
    · apply stepP_congr
      intro pat nt happ
      have hlt := applyPattern_sumNat_lt happ h0
      exact ih a b nt (by omega) (by omega) (by omega)

lemma solveRecursiveP_stable (m : Machine) {fuel : Nat} (tgt : List Int)
    (h : sumNat tgt + 1 ≤ fuel) :
    solveRecursiveP m fuel tgt = solveRecursiveP m (sumNat tgt + 1) tgt :=
  solveRecursiveP_congr m (sumNat tgt) fuel (sumNat tgt + 1) tgt le_rfl h le_rfl

/-! ## Memoization does not change results -/

lemma foldStepM_none {m : Machine} {recur : List Int → Memo → Result × Memo}
    {tgt : List Int} {acc : Result × Memo} {pat : Nat}
    (happ : applyPattern pat tgt m = none) :
    foldStepM m recur tgt acc pat = acc := by
  simp only [foldStepM, happ]

lemma foldStepM_subfail {m : Machine} {recur : List Int → Memo → Result × Memo}
    {tgt : List Int} {acc : Result × Memo} {pat : Nat} {nt : List Int}
    (happ : applyPattern pat tgt m = some nt)
    (h : (recur nt acc.snd).fst.cost = none ∨ (recur nt acc.snd).fst.solution = none) :
    foldStepM m recur tgt acc pat = (acc.fst, (recur nt acc.snd).snd) := by
  rcases hc : (recur nt acc.snd).fst.cost with _ | sc
  · simp only [foldStepM, happ, hc]
  · rcases hs : (recur nt acc.snd).fst.solution with _ | ss
    · simp only [foldStepM, happ, hc, hs]
    · rw [hc, hs] at h
      rcases h with h | h <;> cases h

lemma foldStepM_update_none {m : Machine} {recur : List Int → Memo → Result × Memo}
    {tgt : List Int} {acc : Result × Memo} {pat : Nat} {nt : List Int} {sc : Int} {ss : List Int}
    (happ : applyPattern pat tgt m = some nt)
    (hc : (recur nt acc.snd).fst.cost = some sc)
    (hs : (recur nt acc.snd).fst.solution = some ss)
    (hb : acc.fst.cost = none) :
    foldStepM m recur tgt acc pat
      = (⟨some ((countBits pat : Int) + 2 * sc), some (combineSolution pat ss)⟩,
          (recur nt acc.snd).snd) := by
  simp only [foldStepM, happ, hc, hs, hb]

lemma foldStepM_update_some {m : Machine} {recur : List Int → Memo → Result × Memo}
    {tgt : List Int} {acc : Result × Memo} {pat : Nat} {nt : List Int} {sc bc : Int} {ss : List Int}
    (happ : applyPattern pat tgt m = some nt)
    (hc : (recur nt acc.snd).fst.cost = some sc)
    (hs : (recur nt acc.snd).fst.solution = some ss)
    (hb : acc.fst.cost = some bc) :
    foldStepM m recur tgt acc pat
      = if (countBits pat : Int) + 2 * sc < bc then
          (⟨some ((countBits pat : Int) + 2 * sc), some (combineSolution pat ss)⟩,
            (recur nt acc.snd).snd)
        else (acc.fst, (recur nt acc.snd).snd) := by
  simp only [foldStepM, happ, hc, hs, hb]

lemma solveRecursiveM_allzero {m : Machine} {fuel : Nat} {tgt : List Int} {memo : Memo}
    (h0 : tgt.all (fun v => v == 0) = true) :
    solveRecursiveM m (fuel + 1) tgt memo
      = (⟨some 0, some (List.replicate m.buttons.length 0)⟩, memo) := by
  simp only [solveRecursiveM, h0, if_pos]

lemma solveRecursiveM_hit {m : Machine} {fuel : Nat} {tgt : List Int} {memo : Memo} {r : Result}
    (h0 : ¬ tgt.all (fun v => v == 0) = true)
    (hf : memoFind memo tgt = some r) :
    solveRecursiveM m (fuel + 1) tgt memo = (r, memo) := by
  simp only [solveRecursiveM, h0, hf, Bool.false_eq_true, if_false]

lemma solveRecursiveM_miss_empty {m : Machine} {fuel : Nat} {tgt : List Int} {memo : Memo}
    (h0 : ¬ tgt.all (fun v => v == 0) = true)
    (hf : memoFind memo tgt = none)
    (he : patternsFor m (parityOf tgt) = []) :
    solveRecursiveM m (fuel + 1) tgt memo
      = (⟨none, none⟩, (tgt, (⟨none, none⟩ : Result)) :: memo) := by
  have hne : (patternsFor m (parityOf tgt)).isEmpty = true := by rw [he]; rfl
  simp only [solveRecursiveM, h0, hf, hne, Bool.false_eq_true, if_false, if_pos]

lemma solveRecursiveM_miss_fold {m : Machine} {fuel : Nat} {tgt : List Int} {memo : Memo}
    (h0 : ¬ tgt.all (fun v => v == 0) = true)
    (hf : memoFind memo tgt = none)
    (he : patternsFor m (parityOf tgt) ≠ []) :
    solveRecursiveM m (fuel + 1) tgt memo
      = (((patternsFor m (parityOf tgt)).foldl
            (foldStepM m (fun nt mem => solveRecursiveM m fuel nt mem) tgt)
            ((⟨none, none⟩ : Result), memo)).fst,
          (tgt, ((patternsFor m (parityOf tgt)).foldl
            (foldStepM m (fun nt mem => solveRecursiveM m fuel nt mem) tgt)
            ((⟨none, none⟩ : Result), memo)).fst) ::
          ((patternsFor m (parityOf tgt)).foldl
            (foldStepM m (fun nt mem => solveRecursiveM m fuel nt mem) tgt)
            ((⟨none, none⟩ : Result), memo)).snd) := by
  have hne := List.isEmpty_eq_false.mpr he
  simp only [solveRecursiveM, h0, hf, hne, Bool.false_eq_true, if_false]

/-- Correctness predicate of a memo table: every stored entry is the value the
memo-free recursion computes for its key. -/
def MemoOK (m : Machine) (memo : Memo) : Prop :=
  ∀ k r, memoFind memo k = some r → r = solveRecursiveP m (sumNat k + 1) k

lemma memoOK_nil (m : Machine) : MemoOK m [] := by
  intro k r h
  simp [memoFind] at h

lemma memoFind_cons (k' : List Int) (v : Result) (memo : Memo) (k : List Int) :
    memoFind ((k', v) :: memo) k = if k' = k then some v else memoFind memo k := by
  unfold memoFind
  by_cases hk : k' = k
  · subst hk
    rw [List.find?_cons_of_pos _ (by simp), if_pos rfl]
    rfl
  · rw [List.find?_cons_of_neg _ (by simpa using hk), if_neg hk]

lemma memoOK_cons {m : Machine} {memo : Memo} {k : List Int} {r : Result}
    (hmemo : MemoOK m memo) (hr : r = solveRecursiveP m (sumNat k + 1) k) :
    MemoOK m ((k, r) :: memo) := by
  intro k' r' h
  rw [memoFind_cons] at h
  by_cases hk : k = k'
  · subst hk
    rw [if_pos rfl] at h
    injection h with h
    subst h
    exact hr
  · rw [if_neg hk] at h
    exact hmemo k' r' h

lemma solveRecursiveP_canonical_fold (m : Machine) (tgt : List Int)
    (h0 : ¬ tgt.all (fun v => v == 0) = true)
    (he : patternsFor m (parityOf tgt) ≠ []) :
    solveRecursiveP m (sumNat tgt + 1) tgt
      = (patternsFor m (parityOf tgt)).foldl
          (foldStep m (fun nt => solveRecursiveP m (sumNat nt + 1) nt) tgt) ⟨none, none⟩ := by
  rw [solveRecursiveP_succ, stepP_fold h0 he]
  have hcongr : ∀ pat nt, applyPattern pat tgt m = some nt →
      solveRecursiveP m (sumNat tgt) nt = solveRecursiveP m (sumNat nt + 1) nt := by
    intro pat nt happ
    have := applyPattern_sumNat_lt happ h0
    exact solveRecursiveP_congr m (sumNat nt) _ _ nt le_rfl (by omega) le_rfl
  exact foldl_ext _ _ _ (fun best pat _ => foldStep_congr hcongr best pat) _

lemma foldl_foldStepM_eq (m : Machine) (fuel : Nat) (tgt : List Int)
    (IH : ∀ (nt : List Int) (memo : Memo), sumNat nt + 1 ≤ fuel → MemoOK m memo →
      (solveRecursiveM m fuel nt memo).fst = solveRecursiveP m (sumNat nt + 1) nt ∧
        MemoOK m (solveRecursiveM m fuel nt memo).snd)
    (hdec : ∀ pat nt, applyPattern pat tgt m = some nt → sumNat nt + 1 ≤ fuel) :
    ∀ (pats : List Nat) (best : Result) (memo : Memo), MemoOK m memo →
      (pats.foldl (foldStepM m (fun nt mem => solveRecursiveM m fuel nt mem) tgt)
          (best, memo)).fst
        = pats.foldl (foldStep m (fun nt => solveRecursiveP m (sumNat nt + 1) nt) tgt) best ∧
      MemoOK m (pats.foldl (foldStepM m (fun nt mem => solveRecursiveM m fuel nt mem) tgt)
          (best, memo)).snd := by
  intro pats
  induction pats with
  | nil => intro best memo hm; exact ⟨rfl, hm⟩
  | cons pat pats ihp =>
    intro best memo hm
    rw [List.foldl_cons, List.foldl_cons]
    rcases happ : applyPattern pat tgt m with _ | nt
    · rw [foldStepM_none happ, foldStep_none happ]
      exact ihp best memo hm
    · obtain ⟨hfst, hsnd⟩ := IH nt memo (hdec pat nt happ) hm
      rcases hc : (solveRecursiveP m (sumNat nt + 1) nt).cost with _ | sc
      · have hcM : ((fun nt mem => solveRecursiveM m fuel nt mem) nt (best, memo).snd).fst.cost
            = none := by
          rw [hfst, hc]
        rw [foldStepM_subfail happ (Or.inl hcM),
          @foldStep_subfail m (fun nt => solveRecursiveP m (sumNat nt + 1) nt) tgt best pat nt
            happ (Or.inl hc)]
        exact ihp best _ hsnd
      · rcases hs : (solveRecursiveP m (sumNat nt + 1) nt).solution with _ | ss
        · have hsM : ((fun nt mem => solveRecursiveM m fuel nt mem) nt (best, memo).snd).fst.solution
              = none := by
            rw [hfst, hs]
          rw [foldStepM_subfail happ (Or.inr hsM),
            @foldStep_subfail m (fun nt => solveRecursiveP m (sumNat nt + 1) nt) tgt best pat nt
              happ (Or.inr hs)]
          exact ihp best _ hsnd
        · have hcM : ((fun nt mem => solveRecursiveM m fuel nt mem) nt (best, memo).snd).fst.cost
              = some sc := by rw [hfst, hc]
          have hsM : ((fun nt mem => solveRecursiveM m fuel nt mem) nt (best, memo).snd).fst.solution
              = some ss := by rw [hfst, hs]
          rcases hb : best.cost with _ | bc
          · rw [foldStepM_update_none happ hcM hsM hb,
              @foldStep_update_none m (fun nt => solveRecursiveP m (sumNat nt + 1) nt) tgt best pat
                nt sc ss happ hc hs hb]
            exact ihp _ _ hsnd
          · rw [foldStepM_update_some happ hcM hsM hb,
              @foldStep_update_some m (fun nt => solveRecursiveP m (sumNat nt + 1) nt) tgt best pat
                nt sc bc ss happ hc hs hb]
            by_cases hlt : (countBits pat : Int) + 2 * sc < bc
            · rw [if_pos hlt, if_pos hlt]
              exact ihp _ _ hsnd
            · rw [if_neg hlt, if_neg hlt]
              exact ihp _ _ hsnd

lemma solveRecursiveM_correct (m : Machine) :
    ∀ (fuel : Nat) (tgt : List Int) (memo : Memo),
      sumNat tgt + 1 ≤ fuel → MemoOK m memo →
      (solveRecursiveM m fuel tgt memo).fst = solveRecursiveP m (sumNat tgt + 1) tgt ∧
        MemoOK m (solveRecursiveM m fuel tgt memo).snd := by
  intro fuel
  induction fuel with
  | zero => intro tgt memo h _; omega
  | succ fuel ih =>
    intro tgt memo h hmemo
    by_cases h0 : tgt.all (fun v => v == 0) = true
    · rw [solveRecursiveM_allzero h0]
      refine ⟨?_, hmemo⟩
      rw [solveRecursiveP_succ, stepP_allzero h0]
    · rcases hf : memoFind memo tgt with _ | r
      · by_cases he : patternsFor m (parityOf tgt) = []
        · rw [solveRecursiveM_miss_empty h0 hf he]
          refine ⟨?_, ?_⟩
          · rw [solveRecursiveP_succ, stepP_empty h0 he]
          · exact memoOK_cons hmemo (by rw [solveRecursiveP_succ, stepP_empty h0 he])
        · rw [solveRecursiveM_miss_fold h0 hf he]
          have hdec : ∀ pat nt, applyPattern pat tgt m = some nt → sumNat nt + 1 ≤ fuel := by
            intro pat nt happ
            have := applyPattern_sumNat_lt happ h0
            omega
          obtain ⟨hfst, hsnd⟩ := foldl_foldStepM_eq m fuel tgt ih hdec
            (patternsFor m (parityOf tgt)) ⟨none, none⟩ memo hmemo
          refine ⟨?_, ?_⟩
          · rw [hfst, ← solveRecursiveP_canonical_fold m tgt h0 he]
          · exact memoOK_cons hsnd
              (by rw [hfst, ← solveRecursiveP_canonical_fold m tgt h0 he])
      · rw [solveRecursiveM_hit h0 hf]
        exact ⟨hmemo tgt r hf, hmemo⟩

/-! ## Completeness: the recursion's cost is a lower bound of every valid vector -/

/-- The pattern of a press vector: the mask of buttons pressed an odd number
of times (proof-side construction for the optimality argument). -/
def oddMask : List Int → Nat
  | [] => 0
  | v :: rest => (if v % 2 = 1 then 1 else 0) + 2 * oddMask rest

/-- Halving a press vector after removing its odd bits (proof-side). -/
def halfVec (p : List Int) : List Int := p.map (fun v => (v - v % 2) / 2)

lemma oddMask_lt (p : List Int) : oddMask p < 2 ^ p.length := by
  induction p with
  | nil => simp [oddMask]
  | cons v rest ih =>
    simp only [oddMask, List.length_cons, pow_succ]
    by_cases hv : v % 2 = 1 <;> simp [hv] <;> omega

lemma oddMask_testBit (p : List Int) :
    ∀ b, (oddMask p).testBit b = (decide (b < p.length) && decide (p.getD b 0 % 2 = 1)) := by
  induction p with
  | nil => intro b; simp [oddMask, Nat.zero_testBit]
  | cons v rest ih =>
    intro b
    cases b with
    | zero =>
      simp only [oddMask, List.length_cons, List.getD_cons_zero, Nat.testBit_zero]
      by_cases hv : v % 2 = 1 <;> simp [hv] <;> omega
    | succ b =>
      have step : oddMask (v :: rest) / 2 = oddMask rest := by
        simp only [oddMask]
        by_cases hv : v % 2 = 1 <;> simp [hv] <;> omega
      rw [Nat.testBit_succ, step, ih b]
      simp only [List.length_cons, List.getD_cons_succ]
      have : b < rest.length ↔ b + 1 < rest.length + 1 := by omega
      by_cases hb : b < rest.length <;> simp [hb] <;> omega

lemma oddMask_countBits (p : List Int) :
    countBits (oddMask p) = p.countP (fun v => v % 2 = 1) := by
  induction p with
  | nil => simp [oddMask, countBits, countBitsAux]
  | cons v rest ih =>
    simp only [List.countP_cons]
    by_cases hz : oddMask (v :: rest) = 0
    · have h1 : (if v % 2 = 1 then (1 : Nat) else 0) = 0 ∧ oddMask rest = 0 := by
        simp only [oddMask] at hz
        constructor <;> omega
      have hv : ¬ v % 2 = 1 := by
        intro hv
        rw [if_pos hv] at h1
        exact one_ne_zero h1.1
      rw [hz]
      have hc0 : countBits 0 = 0 := by simp [countBits, countBitsAux]
      rw [hc0, ← ih, h1.2, hc0]
      simp [hv]
    · rw [countBits_rec _ hz]
      have hmod : oddMask (v :: rest) % 2 = (if v % 2 = 1 then 1 else 0) := by
        simp only [oddMask]
        by_cases hv : v % 2 = 1 <;> simp [hv] <;> omega
      have hdiv : oddMask (v :: rest) / 2 = oddMask rest := by
        simp only [oddMask]
        by_cases hv : v % 2 = 1 <;> simp [hv] <;> omega
      rw [hmod, hdiv, ih]
      by_cases hv : v % 2 = 1 <;> simp [hv] <;> omega

lemma halfVec_length (p : List Int) : (halfVec p).length = p.length := by
  simp [halfVec]

lemma halfVec_getD (p : List Int) (b : Nat) :
    (halfVec p).getD b 0 = (p.getD b 0 - p.getD b 0 % 2) / 2 := by
  unfold halfVec
  have h0 : ((0 : Int) - 0 % 2) / 2 = 0 := by norm_num
  calc (p.map (fun v => (v - v % 2) / 2)).getD b 0
      = (p.map (fun v => (v - v % 2) / 2)).getD b ((fun v : Int => (v - v % 2) / 2) 0) := by
        rw [show ((fun v : Int => (v - v % 2) / 2) 0) = 0 from h0]
    _ = (p.getD b 0 - p.getD b 0 % 2) / 2 := List.getD_map p 0 _

lemma sub_emod_two_div (v : Int) : (v - v % 2) / 2 = v / 2 := by
  have hv := Int.ediv_add_emod v 2
  have : v - v % 2 = 2 * (v / 2) := by omega
  rw [this, Int.mul_ediv_cancel_left _ (by norm_num)]

lemma halfVec_nonneg {p : List Int} (h : ∀ v ∈ p, 0 ≤ v) :
    ∀ v ∈ halfVec p, 0 ≤ v := by
  intro v hv
  obtain ⟨w, hw, rfl⟩ := List.mem_map.mp hv
  have h1 := h w hw
  have h2 := Int.emod_two_eq w
  apply Int.ediv_nonneg _ (by norm_num)
  omega

lemma sum_split_idx (l : List Nat) (f : Nat → Int) :
    (l.map f).sum = 2 * (l.map (fun b => (f b - f b % 2) / 2)).sum
      + (l.countP (fun b => f b % 2 = 1) : Int) := by
  induction l with
  | nil => simp
  | cons a t ih =>
    simp only [List.map_cons, List.sum_cons, List.countP_cons, ih]
    have hd := sub_emod_two_div (f a)
    have he := Int.ediv_add_emod (f a) 2
    have hm := Int.emod_two_eq (f a)
    rw [hd]
    by_cases ha : f a % 2 = 1
    · rw [if_pos (by simp [ha])]
      push_cast
      omega
    · rw [if_neg (by simp [ha])]
      push_cast
      omega

lemma halfVec_sum (p : List Int) :
    p.sum = 2 * (halfVec p).sum + (p.countP (fun v => v % 2 = 1) : Int) := by
  induction p with
  | nil => simp [halfVec]
  | cons v t ih =>
    simp only [halfVec, List.map_cons, List.sum_cons, List.countP_cons] at *
    have hd := sub_emod_two_div v
    have he := Int.ediv_add_emod v 2
    have hm := Int.emod_two_eq v
    rw [hd]
    by_cases hv : v % 2 = 1
    · rw [if_pos (by simp [hv])]
      push_cast
      omega
    · rw [if_neg (by simp [hv])]
      push_cast
      omega

lemma counterSum_eq_map_sum (m : Machine) (p : List Int) (i : Nat) :
    counterSum m p i = (((List.range m.buttons.length).filter (fun b => touches m b i)).map
      (fun b => p.getD b 0)).sum := rfl

lemma contribution_oddMask (m : Machine) (p : List Int) (i : Nat)
    (hlen : p.length = m.buttons.length) :
    (contribution m (oddMask p) i : Int)
      = (((List.range m.buttons.length).filter (fun b => touches m b i)).countP
          (fun b => p.getD b 0 % 2 = 1) : Nat) := by
  unfold contribution
  congr 1
  rw [List.countP_filter]
  apply List.countP_congr
  intro b hb
  have hbB : b < m.buttons.length := List.mem_range.mp hb
  rw [oddMask_testBit]
  simp only [Bool.and_eq_true, decide_eq_true_eq]
  constructor
  · rintro ⟨⟨-, hodd⟩, ht⟩
    exact ⟨hodd, ht⟩
  · rintro ⟨hodd, ht⟩
    exact ⟨⟨by omega, hodd⟩, ht⟩

/-- The decomposition of a valid press vector at one level: its counter sums
split into twice the halved vector's sums plus the odd-mask contribution. -/
lemma counterSum_halfVec (m : Machine) (p : List Int) (i : Nat)
    (hlen : p.length = m.buttons.length) :
    counterSum m p i
      = 2 * counterSum m (halfVec p) i + (contribution m (oddMask p) i : Int) := by
  rw [counterSum_eq_map_sum, counterSum_eq_map_sum, contribution_oddMask m p i hlen]
  have hmap : ((List.range m.buttons.length).filter (fun b => touches m b i)).map
      (fun b => (halfVec p).getD b 0)
      = ((List.range m.buttons.length).filter (fun b => touches m b i)).map
        (fun b => (p.getD b 0 - p.getD b 0 % 2) / 2) := by
    apply List.map_congr_left
    intro b _
    exact halfVec_getD p b
  rw [hmap]
  exact sum_split_idx _ (fun b => p.getD b 0)

lemma counterSum_nonneg {m : Machine} {p : List Int} (h : ∀ v ∈ p, 0 ≤ v) (i : Nat) :
    0 ≤ counterSum m p i := by
  apply List.sum_nonneg
  intro x hx
  obtain ⟨b, _, rfl⟩ := List.mem_map.mp hx
  by_cases hb : b < p.length
  · rw [List.getD_eq_getElem _ _ hb]
    exact h _ (List.getElem_mem hb)
  · rw [List.getD_eq_getElem?_getD]
    rw [List.getElem?_eq_none (by omega)]
    norm_num

lemma oddMask_parity_eq (m : Machine) (tgt p : List Int)
    (hlen : tgt.length = m.joltage.length)
    (hplen : p.length = m.buttons.length)
    (hsat : ∀ i < tgt.length, counterSum m p i = tgt.getD i 0) :
    computeParity (oddMask p) m m.joltage.length = parityOf tgt := by
  apply Nat.eq_of_testBit_eq
  intro j
  rw [computeParity_testBit, parityOf_testBit, hlen]
  by_cases hj : j < m.joltage.length
  · have hsplit := counterSum_halfVec m p j hplen
    have ht := hsat j (by omega)
    rw [ht] at hsplit
    have hdd : (decide (contribution m (oddMask p) j % 2 = 1))
        = (decide (tgt.getD j 0 % 2 = 1)) := by
      rw [decide_eq_decide]
      omega
    rw [hdd]
  · simp [hj]

lemma mem_patternsFor {m : Machine} {parity pat : Nat} :
    pat ∈ patternsFor m parity ↔
      pat < 2 ^ m.buttons.length ∧ computeParity pat m m.joltage.length = parity := by
  unfold patternsFor
  rw [List.mem_filter, List.mem_range]
  simp

lemma foldStep_cost_mono {m : Machine} {recur : List Int → Result} {tgt : List Int}
    {best : Result} {pat : Nat} {bc : Int} (hb : best.cost = some bc) :
    ∃ c', (foldStep m recur tgt best pat).cost = some c' ∧ c' ≤ bc := by
  rcases happ : applyPattern pat tgt m with _ | nt
  · rw [foldStep_none happ]; exact ⟨bc, hb, le_rfl⟩
  · rcases hc : (recur nt).cost with _ | sc
    · rw [foldStep_subfail happ (Or.inl hc)]; exact ⟨bc, hb, le_rfl⟩
    · rcases hs : (recur nt).solution with _ | ss
      · rw [foldStep_subfail happ (Or.inr hs)]; exact ⟨bc, hb, le_rfl⟩
      · rw [foldStep_update_some happ hc hs hb]
        by_cases hlt : (countBits pat : Int) + 2 * sc < bc
        · rw [if_pos hlt]; exact ⟨_, rfl, by omega⟩
        · rw [if_neg hlt]; exact ⟨bc, hb, le_rfl⟩

lemma foldl_cost_mono {m : Machine} {recur : List Int → Result} {tgt : List Int} :
    ∀ (pats : List Nat) (best : Result) (bc : Int), best.cost = some bc →
      ∃ c', ((pats.foldl (foldStep m recur tgt) best).cost = some c') ∧ c' ≤ bc := by
  intro pats
  induction pats with
  | nil => intro best bc hb; exact ⟨bc, hb, le_rfl⟩
  | cons pat pats ih =>
    intro best bc hb
    rw [List.foldl_cons]
    obtain ⟨c1, h1, hle1⟩ := foldStep_cost_mono hb
    obtain ⟨c2, h2, hle2⟩ := ih _ c1 h1
    exact ⟨c2, h2, by omega⟩

lemma foldl_cost_le {m : Machine} {recur : List Int → Result} {tgt : List Int}
    {pat : Nat} {nt : List Int} {sc : Int} {ss : List Int}
    (happ : applyPattern pat tgt m = some nt)
    (hc : (recur nt).cost = some sc) (hs : (recur nt).solution = some ss)
    {pats : List Nat} (hmem : pat ∈ pats) (best : Result) :
    ∃ c', ((pats.foldl (foldStep m recur tgt) best).cost = some c') ∧
      c' ≤ (countBits pat : Int) + 2 * sc := by
  obtain ⟨l1, l2, rfl⟩ := List.append_of_mem hmem
  rw [List.foldl_append, List.foldl_cons]
  have hstep : ∃ c0, (foldStep m recur tgt (l1.foldl (foldStep m recur tgt) best) pat).cost
      = some c0 ∧ c0 ≤ (countBits pat : Int) + 2 * sc := by
    rcases hb : (l1.foldl (foldStep m recur tgt) best).cost with _ | bc
    · rw [foldStep_update_none happ hc hs hb]; exact ⟨_, rfl, le_rfl⟩
    · rw [foldStep_update_some happ hc hs hb]
      by_cases hlt : (countBits pat : Int) + 2 * sc < bc
      · rw [if_pos hlt]; exact ⟨_, rfl, le_rfl⟩
      · rw [if_neg hlt]; exact ⟨bc, hb, by omega⟩
  obtain ⟨c0, h0, hle0⟩ := hstep
  obtain ⟨c', h', hle'⟩ := foldl_cost_mono l2 _ c0 h0
  exact ⟨c', h', by omega⟩

lemma solveRecursiveP_cost_le (m : Machine) :
    ∀ (n : Nat) (tgt p : List Int), sumNat tgt ≤ n →
      tgt.length = m.joltage.length →
      p.length = m.buttons.length →
      (∀ v ∈ p, 0 ≤ v) →
      (∀ i < tgt.length, counterSum m p i = tgt.getD i 0) →
      ∃ c, (solveRecursiveP m (sumNat tgt + 1) tgt).cost = some c ∧ c ≤ p.sum := by
  intro n
  induction n with
  | zero =>
    intro tgt p hn hlen hplen hpnn hsat
    have h0 : tgt.all (fun v => v == 0) = true := by
      apply (all_zero_iff tgt).mpr
      apply sumNat_zero_entries (by omega)
      intro j hj
      rw [← hsat j hj]
      exact counterSum_nonneg hpnn j
    have hz : sumNat tgt = 0 := by omega
    rw [hz, solveRecursiveP_succ, stepP_allzero h0]
    exact ⟨0, rfl, List.sum_nonneg hpnn⟩
  | succ n ih =>
    intro tgt p hn hlen hplen hpnn hsat
    by_cases h0 : tgt.all (fun v => v == 0) = true
    · obtain ⟨k, hk⟩ : ∃ k, sumNat tgt + 1 = k + 1 := ⟨sumNat tgt, rfl⟩
      rw [hk, solveRecursiveP_succ, stepP_allzero h0]
      exact ⟨0, rfl, List.sum_nonneg hpnn⟩
    · -- the odd mask of p is a usable pattern at this level
      have hOK : ∀ j < tgt.length, entryOK m (oddMask p) tgt j := by
        intro j hj
        have hsplit := counterSum_halfVec m p j hplen
        have ht := hsat j hj
        rw [ht] at hsplit
        have hcs : 0 ≤ counterSum m (halfVec p) j :=
          counterSum_nonneg (halfVec_nonneg hpnn) j
        constructor
        · omega
        · omega
      have happ : applyPattern (oddMask p) tgt m
          = some ((List.range tgt.length).map (entryVal m (oddMask p) tgt)) :=
        (applyPattern_eq_some_iff _ _ _ _).mpr ⟨hOK, rfl⟩
      set nt := (List.range tgt.length).map (entryVal m (oddMask p) tgt) with hntdef
      have hntlen : nt.length = tgt.length := by simp [hntdef]
      have hdec := applyPattern_sumNat_lt happ h0
      -- halfVec p is valid for the reduced target
      have hsat' : ∀ i < nt.length, counterSum m (halfVec p) i = nt.getD i 0 := by
        intro i hi
        rw [hntlen] at hi
        have hsplit := counterSum_halfVec m p i hplen
        have ht := hsat i hi
        rw [ht] at hsplit
        have hgd : nt.getD i 0 = entryVal m (oddMask p) tgt i := applyPattern_getD happ hi
        have h2 := entryVal_mul_two (hOK i hi)
        rw [hgd]
        omega
      obtain ⟨sc, hsc, hscle⟩ := ih nt (halfVec p) (by omega)
        (by rw [hntlen, hlen]) (by rw [halfVec_length, hplen]) (halfVec_nonneg hpnn) hsat'
      -- the sub-result also carries a solution
      have hgood := solveRecursiveP_good m (sumNat nt + 1) nt
      have hssol : ∃ ss, (solveRecursiveP m (sumNat nt + 1) nt).solution = some ss := by
        rcases hcase : (solveRecursiveP m (sumNat nt + 1) nt).solution with _ | ss
        · have := hgood.1.mpr hcase
          rw [this] at hsc
          cases hsc
        · exact ⟨ss, rfl⟩
      obtain ⟨ss, hss⟩ := hssol
      -- the odd mask is among the candidate patterns
      have hmem : oddMask p ∈ patternsFor m (parityOf tgt) := by
        apply mem_patternsFor.mpr
        constructor
        · have := oddMask_lt p
          rw [hplen] at this
          exact this
        · exact oddMask_parity_eq m tgt p hlen hplen hsat
      have hne : patternsFor m (parityOf tgt) ≠ [] := List.ne_nil_of_mem hmem
      rw [solveRecursiveP_canonical_fold m tgt h0 hne]
      obtain ⟨c, hcost, hcle⟩ := @foldl_cost_le m
        (fun nt => solveRecursiveP m (sumNat nt + 1) nt) tgt (oddMask p) nt sc ss
        happ hsc hss (patternsFor m (parityOf tgt)) hmem ⟨none, none⟩
      refine ⟨c, hcost, ?_⟩
      have hsum := halfVec_sum p
      have hcb := oddMask_countBits p
      -- p.sum = 2 * (halfVec p).sum + countBits (oddMask p)
      rw [← hcb] at hsum
      omega

/-! ## Bridges to solveMachineJoltage -/

lemma solveMachineJoltage_eq_pure (m : Machine) (h : ¬ m.joltage.length = 0) :
    solveMachineJoltage m
      = (solveRecursiveP m (sumNat m.joltage + 1) m.joltage).solution := by
  unfold solveMachineJoltage
  rw [if_neg h]
  congr 1
  exact (solveRecursiveM_correct m (fuelFor m) m.joltage [] le_rfl (memoOK_nil m)).1

lemma solveMachineJoltage_sound (m : Machine) (s : List Int)
    (h : solveMachineJoltage m = some s) :
    s.length = m.buttons.length ∧ (∀ v ∈ s, 0 ≤ v) ∧
      ∀ i < m.joltage.length, counterSum m s i = m.joltage.getD i 0 := by
  by_cases hC : m.joltage.length = 0
  · unfold solveMachineJoltage at h
    rw [if_pos hC] at h
    injection h with h
    subst h
    refine ⟨by simp, ?_, ?_⟩
    · intro v hv; rw [List.eq_of_mem_replicate hv]
    · intro i hi; omega
  · rw [solveMachineJoltage_eq_pure m hC] at h
    have hgood := solveRecursiveP_good m (sumNat m.joltage + 1) m.joltage
    rcases hcost : (solveRecursiveP m (sumNat m.joltage + 1) m.joltage).cost with _ | c
    · have hnone := hgood.1.mp hcost
      rw [hnone] at h
      cases h
    · obtain ⟨hslen, _, hnn, hsat⟩ := hgood.2 c s hcost h
      exact ⟨hslen, hnn, hsat⟩

/-- C3: every press vector returned by `solveMachineJoltage` satisfies the
joltage system exactly — one non-negative entry per button, and for every
counter the sum of presses of the buttons touching it equals the target. -/
theorem joltage_solution_satisfies (m : Machine) (s : List Int)
    (h : solveMachineJoltage m = some s) :
    s.length = m.buttons.length ∧ (∀ v ∈ s, 0 ≤ v) ∧
      ∀ i < m.joltage.length, counterSum m s i = m.joltage.getD i 0 :=
  solveMachineJoltage_sound m s h

theorem joltage_solution_satisfies_witness :
    solveMachineJoltage ⟨[], [[0]], [2]⟩ = some [2] ∧
      (([2] : List Int).length = (⟨[], [[0]], [2]⟩ : Machine).buttons.length ∧
        (∀ v ∈ ([2] : List Int), 0 ≤ v) ∧
        ∀ i < (⟨[], [[0]], [2]⟩ : Machine).joltage.length,
          counterSum ⟨[], [[0]], [2]⟩ [2] i
            = (⟨[], [[0]], [2]⟩ : Machine).joltage.getD i 0) :=
  ⟨by decide, joltage_solution_satisfies ⟨[], [[0]], [2]⟩ [2] (by decide)⟩

/-- C2: on a machine with a non-empty joltage vector the reduction solver
returns `null` exactly when no non-negative press vector meets every counter
target, and any returned vector meets the system with the minimum possible
total number of presses. -/
theorem joltage_minimum (m : Machine) (hne : m.joltage ≠ []) :
    (solveMachineJoltage m = none ↔ ¬ ∃ p, JoltValid m p) ∧
    ∀ s, solveMachineJoltage m = some s →
      JoltValid m s ∧ ∀ p, JoltValid m p → s.sum ≤ p.sum := by
  have hC : ¬ m.joltage.length = 0 := fun h => hne (List.length_eq_zero.mp h)
  have heq := solveMachineJoltage_eq_pure m hC
  have hgood := solveRecursiveP_good m (sumNat m.joltage + 1) m.joltage
  have hsound : ∀ s, solveMachineJoltage m = some s →
      JoltValid m s ∧ (solveRecursiveP m (sumNat m.joltage + 1) m.joltage).cost = some s.sum := by
    intro s hs
    rw [heq] at hs
    rcases hcost : (solveRecursiveP m (sumNat m.joltage + 1) m.joltage).cost with _ | c
    · have hnone := hgood.1.mp hcost
      rw [hnone] at hs
      cases hs
    · obtain ⟨hslen, hcsum, hnn, hsat⟩ := hgood.2 c s hcost hs
      subst hcsum
      exact ⟨⟨hslen, hnn, hsat⟩, rfl⟩
  have hcomplete : ∀ p, JoltValid m p →
      ∃ c, (solveRecursiveP m (sumNat m.joltage + 1) m.joltage).cost = some c ∧ c ≤ p.sum := by
    intro p hp
    exact solveRecursiveP_cost_le m (sumNat m.joltage) m.joltage p le_rfl rfl
      hp.1 hp.2.1 hp.2.2
  constructor
  · constructor
    · intro hnone ⟨p, hp⟩
      obtain ⟨c, hc, -⟩ := hcomplete p hp
      rw [heq] at hnone
      have := hgood.1.mpr hnone
      rw [this] at hc
      cases hc
    · intro hno
      rcases hcase : solveMachineJoltage m with _ | s
      · rfl
      · exact absurd ⟨s, (hsound s hcase).1⟩ hno
  · intro s hs
    obtain ⟨hvalid, hcost⟩ := hsound s hs
    refine ⟨hvalid, ?_⟩
    intro p hp
    obtain ⟨c, hc, hcle⟩ := hcomplete p hp
    rw [hcost] at hc
    injection hc with hc
    omega

theorem joltage_minimum_witness :
    ((⟨[], [[0]], [2]⟩ : Machine).joltage ≠ []) ∧
      ((solveMachineJoltage ⟨[], [[0]], [2]⟩ = none ↔ ¬ ∃ p, JoltValid ⟨[], [[0]], [2]⟩ p) ∧
        ∀ s, solveMachineJoltage ⟨[], [[0]], [2]⟩ = some s →
          JoltValid ⟨[], [[0]], [2]⟩ s ∧
            ∀ p, JoltValid ⟨[], [[0]], [2]⟩ p → s.sum ≤ p.sum) :=
  ⟨by decide, joltage_minimum ⟨[], [[0]], [2]⟩ (by decide)⟩

/-- C9: with sufficient fuel (one more than the sum of the target vector, an
upper bound on the recursion depth), running the memoized recursion from an
empty memo table returns the same `Result` as the recursion with no memo
table at all. -/
theorem memoization_transparent (m : Machine) (fuel : Nat) (tgt : List Int)
    (hfuel : sumNat tgt + 1 ≤ fuel) :
    (solveRecursiveM m fuel tgt []).fst = solveRecursiveP m fuel tgt := by
  rw [(solveRecursiveM_correct m fuel tgt [] hfuel (memoOK_nil m)).1,
    solveRecursiveP_stable m tgt hfuel]

theorem memoization_transparent_witness :
    (sumNat [2] + 1 ≤ 5) ∧
      (solveRecursiveM ⟨[], [[0]], [2]⟩ 5 [2] []).fst
        = solveRecursiveP ⟨[], [[0]], [2]⟩ 5 [2] :=
  ⟨by decide, memoization_transparent ⟨[], [[0]], [2]⟩ 5 [2] (by decide)⟩

/-- C10: every `Result` of the reduction recursion keeps the invariant that
`cost` and `solution` are `null` together, and a present cost equals the sum
of the present solution's entries, all of which are non-negative; the same
holds for the memoized recursion run with adequate fuel. -/
theorem result_invariant (m : Machine) (fuel : Nat) (tgt : List Int) :
    (((solveRecursiveP m fuel tgt).cost = none ↔
        (solveRecursiveP m fuel tgt).solution = none) ∧
      ∀ c s, (solveRecursiveP m fuel tgt).cost = some c →
        (solveRecursiveP m fuel tgt).solution = some s →
        c = s.sum ∧ ∀ v ∈ s, 0 ≤ v) ∧
    (sumNat tgt + 1 ≤ fuel →
      ((solveRecursiveM m fuel tgt []).fst.cost = none ↔
        (solveRecursiveM m fuel tgt []).fst.solution = none) ∧
      ∀ c s, (solveRecursiveM m fuel tgt []).fst.cost = some c →
        (solveRecursiveM m fuel tgt []).fst.solution = some s →
        c = s.sum ∧ ∀ v ∈ s, 0 ≤ v) := by
  have hgood := solveRecursiveP_good m fuel tgt
  constructor
  · exact ⟨hgood.1, fun c s hc hs =>
      ⟨(hgood.2 c s hc hs).2.1, (hgood.2 c s hc hs).2.2.1⟩⟩
  · intro hfuel
    have heq := (solveRecursiveM_correct m fuel tgt [] hfuel (memoOK_nil m)).1
    rw [heq]
    have hgood' := solveRecursiveP_good m (sumNat tgt + 1) tgt
    exact ⟨hgood'.1, fun c s hc hs =>
      ⟨(hgood'.2 c s hc hs).2.1, (hgood'.2 c s hc hs).2.2.1⟩⟩

theorem result_invariant_witness :
    (solveRecursiveP ⟨[], [[0]], [2]⟩ 3 [2]).cost = some 2 ∧
      ((2 : Int) = ([2] : List Int).sum ∧ ∀ v ∈ ([2] : List Int), 0 ≤ v) :=
  ⟨by decide, (result_invariant ⟨[], [[0]], [2]⟩ 3 [2]).1.2 2 [2] (by decide) (by decide)⟩

/-! ## Termination measure: halving and logarithmic depth -/

/-- Maximum entry of a target vector (as a natural number). -/
def maxNat (tgt : List Int) : Nat := (tgt.map Int.toNat).foldr max 0

lemma maxNat_cons (v : Int) (t : List Int) : maxNat (v :: t) = max v.toNat (maxNat t) := rfl

lemma le_maxNat (tgt : List Int) : ∀ v ∈ tgt, v.toNat ≤ maxNat tgt := by
  induction tgt with
  | nil => intro v hv; cases hv
  | cons a t ih =>
    intro v hv
    rw [maxNat_cons]
    rcases List.mem_cons.mp hv with rfl | hv'
    · omega
    · have := ih v hv'
      omega

lemma maxNat_le {tgt : List Int} {k : Nat} (h : ∀ v ∈ tgt, v.toNat ≤ k) :
    maxNat tgt ≤ k := by
  induction tgt with
  | nil => simp [maxNat]
  | cons a t ih =>
    rw [maxNat_cons]
    have ha := h a (List.mem_cons_self _ _)
    have ht := ih (fun v hv => h v (List.mem_cons_of_mem _ hv))
    omega

lemma maxNat_zero_allzero {tgt : List Int} (h : maxNat tgt = 0)
    (hnn : ∀ v ∈ tgt, 0 ≤ v) : tgt.all (fun v => v == 0) = true := by
  rw [List.all_eq_true]
  intro v hv
  have h1 := le_maxNat tgt v hv
  have h2 := hnn v hv
  have : v = 0 := by omega
  simp [this]

lemma applyPattern_nonneg {pattern : Nat} {target : List Int} {m : Machine} {nt : List Int}
    (h : applyPattern pattern target m = some nt) : ∀ v ∈ nt, 0 ≤ v := by
  rw [applyPattern_eq_some_iff] at h
  intro v hv
  rw [h.2] at hv
  obtain ⟨j, hj, rfl⟩ := List.mem_map.mp hv
  rw [List.mem_range] at hj
  exact entryVal_nonneg (h.1 j hj)

lemma applyPattern_maxNat {pattern : Nat} {target : List Int} {m : Machine} {nt : List Int}
    (h : applyPattern pattern target m = some nt) : maxNat nt ≤ maxNat target / 2 := by
  apply maxNat_le
  intro v hv
  have hiff := (applyPattern_eq_some_iff pattern target m nt).mp h
  rw [hiff.2] at hv
  obtain ⟨j, hj, rfl⟩ := List.mem_map.mp hv
  rw [List.mem_range] at hj
  have hok := hiff.1 j hj
  have h2 := entryVal_mul_two hok
  have hnn := entryVal_nonneg hok
  have hc : (0 : Int) ≤ (contribution m pattern j : Int) := Int.ofNat_nonneg _
  have htj : (target.getD j 0).toNat ≤ maxNat target := by
    apply le_maxNat
    rw [List.getD_eq_getElem _ _ hj]
    exact List.getElem_mem hj
  omega

lemma solveRecursiveP_allzero_eq {m : Machine} {tgt : List Int} {fuel : Nat}
    (h0 : tgt.all (fun v => v == 0) = true) (hf : 1 ≤ fuel) :
    solveRecursiveP m fuel tgt = ⟨some 0, some (List.replicate m.buttons.length 0)⟩ := by
  obtain ⟨k, rfl⟩ : ∃ k, fuel = k + 1 := ⟨fuel - 1, by omega⟩
  rw [solveRecursiveP_succ, stepP_allzero h0]

lemma solveRecursiveP_log_congr (m : Machine) :
    ∀ (n f1 f2 : Nat) (tgt : List Int), maxNat tgt ≤ n → (∀ v ∈ tgt, 0 ≤ v) →
      Nat.log2 (maxNat tgt) + 2 ≤ f1 → Nat.log2 (maxNat tgt) + 2 ≤ f2 →
      solveRecursiveP m f1 tgt = solveRecursiveP m f2 tgt := by
  intro n
  induction n with
  | zero =>
    intro f1 f2 tgt hn hnn h1 h2
    have h0 : tgt.all (fun v => v == 0) = true := maxNat_zero_allzero (by omega) hnn
    rw [solveRecursiveP_allzero_eq h0 (by omega), solveRecursiveP_allzero_eq h0 (by omega)]
  | succ n ih =>
    intro f1 f2 tgt hn hnn h1 h2
    by_cases h0 : tgt.all (fun v => v == 0) = true
    · rw [solveRecursiveP_allzero_eq h0 (by omega), solveRecursiveP_allzero_eq h0 (by omega)]
    · obtain ⟨a, rfl⟩ : ∃ a, f1 = a + 1 := ⟨f1 - 1, by omega⟩
      obtain ⟨b, rfl⟩ : ∃ b, f2 = b + 1 := ⟨f2 - 1, by omega⟩
      rw [solveRecursiveP_succ, solveRecursiveP_succ]
      apply stepP_congr
      intro pat nt happ
      have hntnn := applyPattern_nonneg happ
      have hmax := applyPattern_maxNat happ
      have hM1 : 1 ≤ maxNat tgt := by
        by_contra hM
        exact h0 (maxNat_zero_allzero (by omega) hnn)
      by_cases hz : maxNat nt = 0
      · have h0' := maxNat_zero_allzero hz hntnn
        rw [solveRecursiveP_allzero_eq h0' (by omega),
          solveRecursiveP_allzero_eq h0' (by omega)]
      · have hle : Nat.log2 (maxNat nt) + 1 ≤ Nat.log2 (maxNat tgt) := by
          rw [Nat.le_log2 (by omega)]
          have hp := Nat.log2_self_le hz
          calc 2 ^ (Nat.log2 (maxNat nt) + 1) = 2 * 2 ^ Nat.log2 (maxNat nt) := by ring
            _ ≤ 2 * maxNat nt := by omega
            _ ≤ 2 * (maxNat tgt / 2) := by omega
            _ ≤ maxNat tgt := by omega
        exact ih a b nt (by omega) hntnn (by omega) (by omega)

/-- C5: each successful `applyPattern` strictly shrinks the target — every
new entry is non-negative and at most half the old entry, so the maximum
halves — and consequently the recursion stabilizes at fuel (i.e. depth)
`log2 (max target) + 2`: any larger fuel returns the same result. -/
theorem reduction_log_depth (m : Machine) :
    (∀ pat tgt nt, applyPattern pat tgt m = some nt →
      (∀ j < tgt.length,
          0 ≤ nt.getD j 0 ∧ 2 * nt.getD j 0 ≤ tgt.getD j 0 ∧
          2 * nt.getD j 0 = tgt.getD j 0 - (contribution m pat j : Int)) ∧
        maxNat nt ≤ maxNat tgt / 2) ∧
    (∀ tgt fuel, (∀ v ∈ tgt, 0 ≤ v) → Nat.log2 (maxNat tgt) + 2 ≤ fuel →
      solveRecursiveP m fuel tgt
        = solveRecursiveP m (Nat.log2 (maxNat tgt) + 2) tgt) := by
  constructor
  · intro pat tgt nt happ
    refine ⟨?_, applyPattern_maxNat happ⟩
    intro j hj
    have hok := applyPattern_entryOK happ hj
    have h2 := entryVal_mul_two hok
    have hnn := entryVal_nonneg hok
    have hgd := applyPattern_getD happ hj
    have hc : (0 : Int) ≤ (contribution m pat j : Int) := Int.ofNat_nonneg _
    rw [hgd]
    refine ⟨hnn, by omega, by omega⟩
  · intro tgt fuel hnn hfuel
    exact solveRecursiveP_log_congr m (maxNat tgt) fuel
      (Nat.log2 (maxNat tgt) + 2) tgt le_rfl hnn hfuel le_rfl

theorem reduction_log_depth_witness :
    (∀ v ∈ ([2] : List Int), 0 ≤ v) ∧
      (Nat.log2 (maxNat [2]) + 2 ≤ 5) ∧
      solveRecursiveP ⟨[], [[0]], [2]⟩ 5 [2]
        = solveRecursiveP ⟨[], [[0]], [2]⟩ (Nat.log2 (maxNat [2]) + 2) [2] := by
  have hlog : Nat.log2 (maxNat [2]) = 1 := by
    have h2 : maxNat [2] = 2 := rfl
    rw [h2, Nat.log2]
    norm_num
    rw [Nat.log2]
    norm_num
  refine ⟨by decide, by omega, ?_⟩
  exact (reduction_log_depth ⟨[], [[0]], [2]⟩).2 [2] 5 (by decide) (by omega)

/-! ## Untouched counters -/

lemma contribution_untouched (m : Machine) (pat i : Nat)
    (h : ∀ b < m.buttons.length, touches m b i = false) :
    contribution m pat i = 0 := by
  unfold contribution
  rw [List.countP_eq_zero]
  intro b hb
  rw [h b (List.mem_range.mp hb)]
  simp

lemma counterSum_untouched (m : Machine) (p : List Int) (i : Nat)
    (h : ∀ b < m.buttons.length, touches m b i = false) :
    counterSum m p i = 0 := by
  unfold counterSum
  have hnil : (List.range m.buttons.length).filter (fun b => touches m b i) = [] := by
    rw [List.filter_eq_nil_iff]
    intro b hb
    rw [h b (List.mem_range.mp hb)]
    simp
  rw [hnil]
  rfl

/-- The first-level early return of `solveRecursive`: the parity mask of the
machine's own joltage target has an empty candidate-pattern list, so the
first call returns Unsolvable before any recursion. -/
def firstLevelShortCircuit (m : Machine) : Bool :=
  (patternsFor m (parityOf m.joltage)).isEmpty

/-- C6 (amended): a machine with a positive target on a counter touched by no
button is reported Unsolvable; the unsolvability short-circuits at the first
recursion level when that counter's target is odd (for an even target the
pattern list of the first level need not be empty and the failure surfaces
deeper, once halving has made the entry odd). -/
theorem untouched_counter_unsolvable (m : Machine) (i : Nat)
    (hi : i < m.joltage.length) (hpos : 0 < m.joltage.getD i 0)
    (huntouched : ∀ b < m.buttons.length, touches m b i = false) :
    solveMachineJoltage m = none ∧
      (m.joltage.getD i 0 % 2 = 1 → firstLevelShortCircuit m = true) := by
  constructor
  · rcases hcase : solveMachineJoltage m with _ | s
    · rfl
    · exfalso
      obtain ⟨-, -, hsat⟩ := solveMachineJoltage_sound m s hcase
      have h1 := hsat i hi
      rw [counterSum_untouched m s i huntouched] at h1
      omega
  · intro hodd
    unfold firstLevelShortCircuit patternsFor
    rw [List.isEmpty_iff, List.filter_eq_nil_iff]
    intro mask _
    simp only [beq_iff_eq, decide_eq_true_eq]
    intro hcp
    have := congrArg (fun n => Nat.testBit n i) hcp
    simp only at this
    rw [computeParity_testBit, parityOf_testBit] at this
    rw [contribution_untouched m mask i huntouched] at this
    simp [hi, hodd] at this
    rw [List.getD_eq_getElem _ _ hi] at hodd
    omega

theorem untouched_counter_counterexample :
    (0 < (⟨[], [], [2]⟩ : Machine).joltage.getD 0 0) ∧
    (∀ b < (⟨[], [], [2]⟩ : Machine).buttons.length, touches ⟨[], [], [2]⟩ b 0 = false) ∧
    solveMachineJoltage ⟨[], [], [2]⟩ = none ∧
    firstLevelShortCircuit ⟨[], [], [2]⟩ = false ∧
    patternsFor ⟨[], [], [2]⟩ (parityOf [1]) = [] := by decide

theorem untouched_counter_unsolvable_witness :
    (0 < (⟨[], [], [3]⟩ : Machine).joltage.getD 0 0) ∧
      solveMachineJoltage ⟨[], [], [3]⟩ = none ∧
      ((⟨[], [], [3]⟩ : Machine).joltage.getD 0 0 % 2 = 1 →
        firstLevelShortCircuit ⟨[], [], [3]⟩ = true) :=
  ⟨by decide,
    (untouched_counter_unsolvable ⟨[], [], [3]⟩ 0 (by decide) (by decide) (by decide)).1,
    (untouched_counter_unsolvable ⟨[], [], [3]⟩ 0 (by decide) (by decide) (by decide)).2⟩

/-! ## Batch aggregators -/

lemma part1_fold_ok : ∀ (ms : List Machine) (total : Int),
    (∀ mach ∈ ms, solveMachineLights mach ≠ -1) →
    ms.foldlM part1Step total = Except.ok (total + (ms.map solveMachineLights).sum) := by
  intro ms
  induction ms with
  | nil => intro total _; simp [List.foldlM_nil]; rfl
  | cons mach ms ih =>
    intro total hall
    rw [List.foldlM_cons]
    have hm := hall mach (List.mem_cons_self _ _)
    have hstep : part1Step total mach = Except.ok (total + solveMachineLights mach) := by
      simp only [part1Step]
      rw [if_neg hm]
    rw [hstep]
    show ms.foldlM part1Step (total + solveMachineLights mach) = _
    rw [ih _ (fun x hx => hall x (List.mem_cons_of_mem _ hx))]
    simp only [List.map_cons, List.sum_cons]
    congr 1
    ring

lemma part1_fold_err : ∀ (ms : List Machine) (total : Int),
    (∃ mach ∈ ms, solveMachineLights mach = -1) →
    ms.foldlM part1Step total
      = Except.error "No solution found for a machine (lights)" := by
  intro ms
  induction ms with
  | nil =>
    rintro total ⟨mach, hmem, -⟩
    cases hmem
  | cons mach ms ih =>
    rintro total ⟨mach', hmem', hbad⟩
    rw [List.foldlM_cons]
    by_cases hm : solveMachineLights mach = -1
    · have hstep : part1Step total mach
          = Except.error "No solution found for a machine (lights)" := by
        simp only [part1Step]
        rw [if_pos hm]
      rw [hstep]
      rfl
    · have hstep : part1Step total mach = Except.ok (total + solveMachineLights mach) := by
        simp only [part1Step]
        rw [if_neg hm]
      rw [hstep]
      have hmem2 : mach' ∈ ms := by
        rcases List.mem_cons.mp hmem' with rfl | h
        · exact absurd hbad hm
        · exact h
      show ms.foldlM part1Step (total + solveMachineLights mach) = _
      exact ih _ ⟨mach', hmem2, hbad⟩

lemma part2_fold_ok : ∀ (ms : List Machine) (total : Int),
    (∀ mach ∈ ms, solveMachineJoltage mach ≠ none) →
    ms.foldlM part2Step total
      = Except.ok (total + (ms.map (fun mach => ((solveMachineJoltage mach).getD []).sum)).sum) := by
  intro ms
  induction ms with
  | nil => intro total _; simp [List.foldlM_nil]; rfl
  | cons mach ms ih =>
    intro total hall
    rw [List.foldlM_cons]
    have hm := hall mach (List.mem_cons_self _ _)
    obtain ⟨sol, hsol⟩ := Option.ne_none_iff_exists.mp hm
    have hstep : part2Step total mach = Except.ok (total + sol.sum) := by
      simp only [part2Step]
      rw [← hsol]
    rw [hstep]
    show ms.foldlM part2Step (total + sol.sum) = _
    rw [ih _ (fun x hx => hall x (List.mem_cons_of_mem _ hx))]
    simp only [List.map_cons, List.sum_cons, ← hsol, Option.getD_some]
    congr 1
    ring

lemma part2_fold_err : ∀ (ms : List Machine) (total : Int),
    (∃ mach ∈ ms, solveMachineJoltage mach = none) →
    ms.foldlM part2Step total
      = Except.error "No solution found for a machine (joltage)" := by
  intro ms
  induction ms with
  | nil =>
    rintro total ⟨mach, hmem, -⟩
    cases hmem
  | cons mach ms ih =>
    rintro total ⟨mach', hmem', hbad⟩
    rw [List.foldlM_cons]
    rcases hm : solveMachineJoltage mach with _ | sol
    · have hstep : part2Step total mach
          = Except.error "No solution found for a machine (joltage)" := by
        simp only [part2Step, hm]
      rw [hstep]
      rfl
    · have hstep : part2Step total mach = Except.ok (total + sol.sum) := by
        simp only [part2Step, hm]
      rw [hstep]
      have hmem2 : mach' ∈ ms := by
        rcases List.mem_cons.mp hmem' with rfl | h
        · rw [hbad] at hm; cases hm
        · exact h
      show ms.foldlM part2Step (total + sol.sum) = _
      exact ih _ ⟨mach', hmem2, hbad⟩

/-- C7 (amended): both aggregators sum the per-machine minima when every
machine is solvable, and fail with a fixed error — identifying the solver
phase but not which machine failed — without returning a partial sum the
moment any machine is unsolvable. -/
theorem aggregator_behaviour (ms : List Machine) :
    ((∀ mach ∈ ms, solveMachineLights mach ≠ -1) →
      solvePart1 ms = Except.ok ((ms.map solveMachineLights).sum)) ∧
    ((∃ mach ∈ ms, solveMachineLights mach = -1) →
      solvePart1 ms = Except.error "No solution found for a machine (lights)") ∧
    ((∀ mach ∈ ms, solveMachineJoltage mach ≠ none) →
      solvePart2 ms
        = Except.ok ((ms.map (fun mach => ((solveMachineJoltage mach).getD []).sum)).sum)) ∧
    ((∃ mach ∈ ms, solveMachineJoltage mach = none) →
      solvePart2 ms = Except.error "No solution found for a machine (joltage)") := by
  refine ⟨?_, ?_, ?_, ?_⟩
  · intro h
    unfold solvePart1
    rw [part1_fold_ok ms 0 h]
    norm_num
  · intro h
    unfold solvePart1
    exact part1_fold_err ms 0 h
  · intro h
    unfold solvePart2
    rw [part2_fold_ok ms 0 h]
    norm_num
  · intro h
    unfold solvePart2
    exact part2_fold_err ms 0 h

/-- The error value carries no information about which machine failed: a
batch failing at its first machine and a batch failing at its second produce
identical outputs. -/
theorem aggregator_counterexample :
    solvePart1 [⟨[true], [], []⟩, ⟨[], [], []⟩]
        = solvePart1 [⟨[], [], []⟩, ⟨[true], [], []⟩] ∧
    solvePart1 [⟨[true], [], []⟩, ⟨[], [], []⟩]
        = Except.error "No solution found for a machine (lights)" ∧
    solveMachineLights ⟨[true], [], []⟩ = -1 ∧
    solveMachineLights ⟨[], [], []⟩ = 0 :=
  ⟨rfl, rfl, by decide, by decide⟩

theorem aggregator_behaviour_witness :
    ((∃ mach ∈ [(⟨[true], [], []⟩ : Machine)], solveMachineLights mach = -1)) ∧
      solvePart1 [(⟨[true], [], []⟩ : Machine)]
        = Except.error "No solution found for a machine (lights)" :=
  ⟨⟨⟨[true], [], []⟩, List.mem_cons_self _ _, by decide⟩,
    (aggregator_behaviour [⟨[true], [], []⟩]).2.1
      ⟨⟨[true], [], []⟩, List.mem_cons_self _ _, by decide⟩⟩

/-! ## Parser behaviour -/

/-- C8 (amended): a line without a bracketed light pattern is rejected at
parse time with an error naming the line; but a parenthesized group that is
not made of digits and commas (a non-numeric index) simply fails the button
regex and is silently dropped, and an empty component inside a
digits-and-commas group is coerced to 0 — neither is reported. -/
theorem parse_behaviour :
    (∀ line : List Char, findBracketPattern line = none →
      parseLine line = Except.error ("Invalid pattern: " ++ String.mk line)) ∧
    parseInput "(1,2)" = Except.error "Invalid pattern: (1,2)" ∧
    parseInput "[#] (1,,2)" = Except.ok [⟨[true], [[1, 0, 2]], []⟩] := by
  refine ⟨?_, rfl, rfl⟩
  intro line h
  unfold parseLine
  rw [h]

/-- A button group with a non-numeric index is dropped without any error: the
machine parses as if the group were not there. -/
theorem parse_counterexample :
    parseInput "[#] (a) (1)" = Except.ok [⟨[true], [[1]], []⟩] := rfl

theorem parse_behaviour_witness :
    findBracketPattern ['a'] = none ∧
      parseLine ['a'] = Except.error ("Invalid pattern: " ++ String.mk ['a']) :=
  ⟨by decide, parse_behaviour.1 ['a'] (by decide)⟩

/-! ## The end-to-end fixture -/

def fixtureInput : String :=
  "[.##.] (3) (1,3) (2) (2,3) (0,2) (0,1) \x7b3,5,4,7\x7d\n[...#.] (0,2,3,4) (2,3) (0,4) (0,1,2) (1,2,3,4) \x7b7,5,12,7,2\x7d\n[.###.#] (0,1,2,3,4) (0,3,4) (0,1,2,4,5) (1,2) \x7b10,11,11,5,10,5\x7d"

def fixtureMachines : List Machine :=
  [⟨[false, true, true, false], [[3], [1, 3], [2], [2, 3], [0, 2], [0, 1]], [3, 5, 4, 7]⟩,
   ⟨[false, false, false, true, false],
     [[0, 2, 3, 4], [2, 3], [0, 4], [0, 1, 2], [1, 2, 3, 4]], [7, 5, 12, 7, 2]⟩,
   ⟨[false, true, true, true, false, true],
     [[0, 1, 2, 3, 4], [0, 3, 4], [0, 1, 2, 4, 5], [1, 2]], [10, 11, 11, 5, 10, 5]⟩]

/-- C4: the three-machine fixture parses to the three machines of the claim,
`solvePart1` totals 7 toggle presses and `solvePart2` totals 33 additive
presses on them. -/
theorem fixture_results :
    parseInput fixtureInput = Except.ok fixtureMachines ∧
    solvePart1 fixtureMachines = Except.ok 7 ∧
    solvePart2 fixtureMachines = Except.ok 33 :=
  ⟨rfl, rfl, rfl⟩

/-! ## GF(2) semantics of the augmented matrix -/

/-- Number of columns `c < B` where both the row coefficient and the
assignment are set; its parity is the row's left-hand side at `x`. -/
def dotCount (row x : List Bool) (B : Nat) : Nat :=
  (List.range B).countP (fun c => row.getD c false && x.getD c false)

/-- One augmented row is satisfied: the parity of the dot product equals the
augmented (target) entry. -/
def rowSat (row x : List Bool) (B : Nat) : Prop :=
  dotCount row x B % 2 = (if row.getD B false then 1 else 0)

/-- The whole augmented system is satisfied. -/
def matSat (mat : List (List Bool)) (B : Nat) (x : List Bool) : Prop :=
  ∀ r < mat.length, rowSat (mat.getD r []) x B

lemma countP_parity_xor {α : Type _} (l : List α) (f g : α → Bool) :
    (l.countP (fun a => f a != g a)) % 2 = (l.countP f + l.countP g) % 2 := by
  induction l with
  | nil => rfl
  | cons a t ih =>
    simp only [List.countP_cons]
    cases hf : f a <;> cases hg : g a <;> simp [hf, hg] <;> omega

lemma foldl_flip (l : List Nat) (p : Nat → Bool) (init : Bool) :
    l.foldl (fun v c => if p c then !v else v) init
      = (init != ((l.countP p) % 2 == 1)) := by
  induction l generalizing init with
  | nil => simp
  | cons a t ih =>
    rw [List.foldl_cons, ih, List.countP_cons]
    cases ha : p a
    · simp
    · simp only [ha, if_pos, if_true]
      rcases Nat.mod_two_eq_zero_or_one (t.countP p) with h | h <;>
        cases init <;> simp [h, Nat.add_mod]

lemma swapRows_length (mat : List (List Bool)) (a b : Nat) :
    (swapRows mat a b).length = mat.length := by
  simp [swapRows]

lemma swapRows_getD (mat : List (List Bool)) (a b r : Nat)
    (ha : a < mat.length) (hb : b < mat.length) :
    (swapRows mat a b).getD r []
      = if r = b then mat.getD a [] else if r = a then mat.getD b [] else mat.getD r [] := by
  unfold swapRows
  by_cases hrb : r = b
  · subst hrb
    rw [if_pos rfl, getD_set_self _ _ _ _ (by simpa using hb)]
  · rw [if_neg hrb, getD_set_ne _ _ _ _ _ (fun h => hrb h.symm)]
    by_cases hra : r = a
    · subst hra
      rw [if_pos rfl, getD_set_self _ _ _ _ ha]
    · rw [if_neg hra, getD_set_ne _ _ _ _ _ (fun h => hra h.symm)]

lemma elimOthers_length (mat : List (List Bool)) (rank col : Nat) :
    (elimOthers mat rank col).length = mat.length := by
  simp [elimOthers]

lemma elimOthers_getD (mat : List (List Bool)) (rank col r : Nat) (hr : r < mat.length) :
    (elimOthers mat rank col).getD r []
      = if r ≠ rank ∧ (mat.getD r []).getD col false then
          (mat.getD r []).zipWith (fun a b => a != b) (mat.getD rank [])
        else mat.getD r [] := by
  unfold elimOthers
  rw [getD_range_map _ _ _ _ hr]

lemma length_zipWith_bne (r p : List Bool) (h : r.length = p.length) :
    (r.zipWith (fun a b => a != b) p).length = r.length := by
  rw [List.length_zipWith, h]
  omega

lemma getD_zipWith_bne (r p : List Bool) (c : Nat) (hc : c < r.length) (hc2 : c < p.length) :
    (r.zipWith (fun a b => a != b) p).getD c false
      = ((r.getD c false) != (p.getD c false)) := by
  have hlen : c < (r.zipWith (fun a b => a != b) p).length := by
    rw [List.length_zipWith]
    omega
  rw [List.getD_eq_getElem _ _ hlen, List.getElem_zipWith,
    List.getD_eq_getElem _ _ hc, List.getD_eq_getElem _ _ hc2]

lemma dotCount_zipWith_bne (r p x : List Bool) (B : Nat)
    (hr : B < r.length) (hp : B < p.length) :
    dotCount (r.zipWith (fun a b => a != b) p) x B % 2
      = (dotCount r x B + dotCount p x B) % 2 := by
  unfold dotCount
  have hcong : (List.range B).countP
      (fun c => (r.zipWith (fun a b => a != b) p).getD c false && x.getD c false)
      = (List.range B).countP
        (fun c => (r.getD c false && x.getD c false) != (p.getD c false && x.getD c false)) := by
    apply List.countP_congr
    intro c hc
    have hcB : c < B := List.mem_range.mp hc
    rw [getD_zipWith_bne r p c (by omega) (by omega)]
    cases hrc : r.getD c false <;> cases hpc : p.getD c false <;>
      cases hxc : x.getD c false <;> simp
  rw [hcong]
  exact countP_parity_xor (List.range B)
    (fun c => r.getD c false && x.getD c false)
    (fun c => p.getD c false && x.getD c false)

lemma rowSat_zipWith_bne {r p x : List Bool} {B : Nat}
    (hr : r.length = B + 1) (hp : p.length = B + 1)
    (hpSat : rowSat p x B) :
    rowSat (r.zipWith (fun a b => a != b) p) x B ↔ rowSat r x B := by
  unfold rowSat at *
  rw [dotCount_zipWith_bne r p x B (by omega) (by omega)]
  rw [getD_zipWith_bne r p B (by omega) (by omega)]
  rcases Nat.mod_two_eq_zero_or_one (dotCount r x B) with h1 | h1 <;>
    cases hrB : r.getD B false <;> cases hpB : p.getD B false <;>
      rw [hpB] at hpSat <;> simp [h1, hrB, Nat.add_mod, hpSat] <;> omega

lemma matSat_swap {mat : List (List Bool)} {B a b : Nat}
    (ha : a < mat.length) (hb : b < mat.length) (x : List Bool) :
    matSat (swapRows mat a b) B x ↔ matSat mat B x := by
  unfold matSat
  rw [swapRows_length]
  constructor
  · intro h r hr
    by_cases hra : r = a
    · have hb' := h b hb
      rw [swapRows_getD mat a b b ha hb, if_pos rfl] at hb'
      rw [hra]
      exact hb'
    · by_cases hrb : r = b
      · have ha' := h a ha
        rw [swapRows_getD mat a b a ha hb] at ha'
        have hab : ¬ a = b := fun h' => hra (hrb.trans h'.symm)
        rw [if_neg hab, if_pos rfl] at ha'
        rw [hrb]
        exact ha'
      · have hr' := h r hr
        rw [swapRows_getD mat a b r ha hb, if_neg hrb, if_neg hra] at hr'
        exact hr'
  · intro h r hr
    rw [swapRows_getD mat a b r ha hb]
    by_cases hrb : r = b
    · rw [if_pos hrb]; exact h a ha
    · rw [if_neg hrb]
      by_cases hra : r = a
      · rw [if_pos hra]; exact h b hb
      · rw [if_neg hra]; exact h r hr

lemma matSat_elimOthers {mat : List (List Bool)} {B rank col : Nat}
    (hlen : ∀ r < mat.length, (mat.getD r []).length = B + 1)
    (hrank : rank < mat.length) (x : List Bool) :
    matSat (elimOthers mat rank col) B x ↔ matSat mat B x := by
  unfold matSat
  rw [elimOthers_length]
  have hpr : (elimOthers mat rank col).getD rank [] = mat.getD rank [] := by
    rw [elimOthers_getD mat rank col rank hrank]
    simp
  constructor
  · intro h r hr
    have hpivSat : rowSat (mat.getD rank []) x B := by
      have := h rank hrank
      rw [hpr] at this
      exact this
    have hr' := h r hr
    rw [elimOthers_getD mat rank col r hr] at hr'
    by_cases hcond : r ≠ rank ∧ (mat.getD r []).getD col false
    · rw [if_pos hcond] at hr'
      exact (rowSat_zipWith_bne (hlen r hr) (hlen rank hrank) hpivSat).mp hr'
    · rw [if_neg hcond] at hr'
      exact hr'
  · intro h r hr
    rw [elimOthers_getD mat rank col r hr]
    by_cases hcond : r ≠ rank ∧ (mat.getD r []).getD col false
    · rw [if_pos hcond]
      exact (rowSat_zipWith_bne (hlen r hr) (hlen rank hrank) (h rank hrank)).mpr (h r hr)
    · rw [if_neg hcond]
      exact h r hr

/-- The loop invariant of the Gaussian elimination, after processing the
columns `0, …, col-1`. -/
structure ElimInv (L B : Nat) (mat0 : List (List Bool)) (st : ElimState) (col : Nat) : Prop where
  len : st.matrix.length = L
  rowlen : ∀ r < L, (st.matrix.getD r []).length = B + 1
  pclen : st.pivotCol.length = st.rank
  rankle : st.rank ≤ L
  pclt : ∀ r < st.rank, st.pivotCol.getD r 0 < col
  pcmono : ∀ r1 r2, r1 < r2 → r2 < st.rank →
      st.pivotCol.getD r1 0 < st.pivotCol.getD r2 0
  pivot_one : ∀ r < st.rank,
      (st.matrix.getD r []).getD (st.pivotCol.getD r 0) false = true
  pivot_zero : ∀ r < st.rank, ∀ r' < L, r' ≠ r →
      (st.matrix.getD r' []).getD (st.pivotCol.getD r 0) false = false
  below_zero : ∀ r, st.rank ≤ r → r < L → ∀ c < col,
      (st.matrix.getD r []).getD c false = false
  row_low_zero : ∀ r < st.rank, ∀ c < st.pivotCol.getD r 0,
      (st.matrix.getD r []).getD c false = false
  sat_iff : ∀ x, matSat st.matrix B x ↔ matSat mat0 B x

lemma elimInv_init (m : Machine) :
    ElimInv m.target.length m.buttons.length (buildMatrix m)
      ⟨buildMatrix m, 0, []⟩ 0 := by
  refine ⟨by simp [buildMatrix], ?_, rfl, Nat.zero_le _,
    ?_, ?_, ?_, ?_, ?_, ?_, fun x => Iff.rfl⟩
  · intro r hr
    unfold buildMatrix
    rw [getD_range_map _ _ _ _ hr]
    simp
  · intro r hr; exact absurd hr (Nat.not_lt_zero r)
  · intro r1 r2 _ h2; exact absurd h2 (Nat.not_lt_zero r2)
  · intro r hr; exact absurd hr (Nat.not_lt_zero r)
  · intro r hr; exact absurd hr (Nat.not_lt_zero r)
  · intro r _ _ c hc; exact absurd hc (Nat.not_lt_zero c)
  · intro r hr; exact absurd hr (Nat.not_lt_zero r)

lemma elimInv_elimCol {L B : Nat} {mat0 : List (List Bool)} {st : ElimState} {col : Nat}
    (inv : ElimInv L B mat0 st col) (hcol : col < B) (hrk : st.rank < L) :
    ElimInv L B mat0 (elimCol L st col) (col + 1) := by
  unfold elimCol
  rcases hfind : findPivot st.matrix col st.rank L with _ | pr
  · show ElimInv L B mat0 st (col + 1)
    refine ⟨inv.len, inv.rowlen, inv.pclen, inv.rankle,
      (fun r hr => Nat.lt_trans (inv.pclt r hr) (Nat.lt_succ_self col)), inv.pcmono,
      inv.pivot_one, inv.pivot_zero, ?_, inv.row_low_zero, inv.sat_iff⟩
    intro r h1 h2 c hc
    by_cases hc' : c < col
    · exact inv.below_zero r h1 h2 c hc'
    · have hceq : c = col := by omega
      subst hceq
      unfold findPivot at hfind
      have hmem : r ∈ List.range' st.rank (L - st.rank) := by
        rw [List.mem_range']
        exact ⟨r - st.rank, by omega, by omega⟩
      have := List.find?_eq_none.mp hfind r hmem
      simpa using this
  · have hprfacts : st.rank ≤ pr ∧ pr < L ∧ (st.matrix.getD pr []).getD col false = true := by
      unfold findPivot at hfind
      have hmem := List.mem_of_find?_eq_some hfind
      have hp := List.find?_some hfind
      rw [List.mem_range'] at hmem
      obtain ⟨i, hi, rfl⟩ := hmem
      exact ⟨by omega, by omega, by simpa using hp⟩
    obtain ⟨hpr1, hpr2, hpr3⟩ := hprfacts
    have hrkA : st.rank < st.matrix.length := by rw [inv.len]; exact hrk
    have hprA : pr < st.matrix.length := by rw [inv.len]; exact hpr2
    have hm1len : (swapRows st.matrix st.rank pr).length = L := by
      rw [swapRows_length]; exact inv.len
    have hm1get : ∀ r : Nat, (swapRows st.matrix st.rank pr).getD r []
        = if r = pr then st.matrix.getD st.rank []
          else if r = st.rank then st.matrix.getD pr []
          else st.matrix.getD r [] :=
      fun r => swapRows_getD st.matrix st.rank pr r hrkA hprA
    have hm1rank : (swapRows st.matrix st.rank pr).getD st.rank []
        = st.matrix.getD pr [] := by
      rw [hm1get st.rank]
      by_cases h : st.rank = pr
      · rw [if_pos h, h]
      · rw [if_neg h, if_pos rfl]
    have hm1rowlen : ∀ r, r < L →
        ((swapRows st.matrix st.rank pr).getD r []).length = B + 1 := by
      intro r hr
      rw [hm1get r]
      by_cases h1 : r = pr
      · rw [if_pos h1]; exact inv.rowlen st.rank hrk
      · rw [if_neg h1]
        by_cases h2 : r = st.rank
        · rw [if_pos h2]; exact inv.rowlen pr hpr2
        · rw [if_neg h2]; exact inv.rowlen r hr
    have hm1below : ∀ r, st.rank ≤ r → r < L → ∀ c, c < col →
        ((swapRows st.matrix st.rank pr).getD r []).getD c false = false := by
      intro r h1 h2 c hc
      rw [hm1get r]
      by_cases ha : r = pr
      · rw [if_pos ha]; exact inv.below_zero st.rank le_rfl hrk c hc
      · rw [if_neg ha]
        by_cases hb : r = st.rank
        · rw [if_pos hb]; exact inv.below_zero pr hpr1 hpr2 c hc
        · rw [if_neg hb]; exact inv.below_zero r h1 h2 c hc
    have hm1low : ∀ r, r < st.rank →
        (swapRows st.matrix st.rank pr).getD r [] = st.matrix.getD r [] := by
      intro r hr
      rw [hm1get r, if_neg (by omega), if_neg (by omega)]
    have hpivlen : (st.matrix.getD pr []).length = B + 1 := inv.rowlen pr hpr2
    have hpivlow : ∀ c, c < col → (st.matrix.getD pr []).getD c false = false :=
      fun c hc => inv.below_zero pr hpr1 hpr2 c hc
    have hpivpc : ∀ r, r < st.rank →
        (st.matrix.getD pr []).getD (st.pivotCol.getD r 0) false = false :=
      fun r hr => inv.pivot_zero r hr pr hpr2 (by omega)
    have hm2len : (elimOthers (swapRows st.matrix st.rank pr) st.rank col).length = L := by
      rw [elimOthers_length]; exact hm1len
    have hm2get : ∀ r, r < L →
        (elimOthers (swapRows st.matrix st.rank pr) st.rank col).getD r []
          = if r ≠ st.rank ∧ ((swapRows st.matrix st.rank pr).getD r []).getD col false then
              ((swapRows st.matrix st.rank pr).getD r []).zipWith (fun a b => a != b)
                (st.matrix.getD pr [])
            else (swapRows st.matrix st.rank pr).getD r [] := by
      intro r hr
      rw [elimOthers_getD _ st.rank col r (by rw [hm1len]; exact hr), hm1rank]
    have hm2rowlen : ∀ r, r < L →
        ((elimOthers (swapRows st.matrix st.rank pr) st.rank col).getD r []).length
          = B + 1 := by
      intro r hr
      rw [hm2get r hr]
      by_cases hcond : r ≠ st.rank ∧ ((swapRows st.matrix st.rank pr).getD r []).getD col false
      · rw [if_pos hcond, length_zipWith_bne _ _ (by rw [hm1rowlen r hr, hpivlen])]
        exact hm1rowlen r hr
      · rw [if_neg hcond]; exact hm1rowlen r hr
    have hm2zero : ∀ r, r < L → ∀ c, c ≤ B →
        ((swapRows st.matrix st.rank pr).getD r []).getD c false = false →
        (st.matrix.getD pr []).getD c false = false →
        ((elimOthers (swapRows st.matrix st.rank pr) st.rank col).getD r []).getD c false
          = false := by
      intro r hr c hc hr0 hp0
      rw [hm2get r hr]
      by_cases hcond : r ≠ st.rank ∧ ((swapRows st.matrix st.rank pr).getD r []).getD col false
      · rw [if_pos hcond, getD_zipWith_bne _ _ c (by rw [hm1rowlen r hr]; omega)
          (by rw [hpivlen]; omega), hr0, hp0]
        rfl
      · rw [if_neg hcond]; exact hr0
    have hm2keep : ∀ r, r < L → ∀ c, c ≤ B →
        (st.matrix.getD pr []).getD c false = false →
        ((elimOthers (swapRows st.matrix st.rank pr) st.rank col).getD r []).getD c false
          = ((swapRows st.matrix st.rank pr).getD r []).getD c false := by
      intro r hr c hc hp0
      rw [hm2get r hr]
      by_cases hcond : r ≠ st.rank ∧ ((swapRows st.matrix st.rank pr).getD r []).getD col false
      · rw [if_pos hcond, getD_zipWith_bne _ _ c (by rw [hm1rowlen r hr]; omega)
          (by rw [hpivlen]; omega), hp0]
        simp
      · rw [if_neg hcond]
    have hm2col : ∀ r, r < L → r ≠ st.rank →
        ((elimOthers (swapRows st.matrix st.rank pr) st.rank col).getD r []).getD col false
          = false := by
      intro r hr hne
      rw [hm2get r hr]
      by_cases hcond : r ≠ st.rank ∧ ((swapRows st.matrix st.rank pr).getD r []).getD col false
      · rw [if_pos hcond, getD_zipWith_bne _ _ col (by rw [hm1rowlen r hr]; omega)
          (by rw [hpivlen]; omega), hcond.2, hpr3]
        rfl
      · rw [if_neg hcond]
        by_cases h1 : ((swapRows st.matrix st.rank pr).getD r []).getD col false
        · exact absurd ⟨hne, h1⟩ hcond
        · simpa using h1
    have hm2rank : (elimOthers (swapRows st.matrix st.rank pr) st.rank col).getD st.rank []
        = st.matrix.getD pr [] := by
      rw [hm2get st.rank hrk, if_neg (fun h => h.1 rfl)]
      exact hm1rank
    have hpc'lo : ∀ r, r < st.rank →
        (st.pivotCol ++ [col]).getD r 0 = st.pivotCol.getD r 0 := by
      intro r hr
      exact List.getD_append _ _ _ _ (by rw [inv.pclen]; exact hr)
    have hpc'hi : (st.pivotCol ++ [col]).getD st.rank 0 = col := by
      rw [List.getD_eq_getElem?_getD, ← inv.pclen, List.getElem?_concat_length]
      rfl
    show ElimInv L B mat0
      ⟨elimOthers (swapRows st.matrix st.rank pr) st.rank col,
        st.rank + 1, st.pivotCol ++ [col]⟩ (col + 1)
    refine ⟨hm2len, hm2rowlen, ?_, by show st.rank + 1 ≤ L; omega, ?_, ?_, ?_, ?_, ?_, ?_, ?_⟩
    · show (st.pivotCol ++ [col]).length = st.rank + 1
      simp [inv.pclen]
    · -- pclt
      intro r hr
      dsimp only at hr ⊢
      by_cases hrlt : r < st.rank
      · rw [hpc'lo r hrlt]
        exact Nat.lt_trans (inv.pclt r hrlt) (Nat.lt_succ_self col)
      · have : r = st.rank := by omega
        subst this
        rw [hpc'hi]
        omega
    · -- pcmono
      intro r1 r2 h12 h2
      dsimp only at h2 ⊢
      by_cases hr2 : r2 < st.rank
      · rw [hpc'lo r1 (by omega), hpc'lo r2 hr2]
        exact inv.pcmono r1 r2 h12 hr2
      · have : r2 = st.rank := by omega
        subst this
        rw [hpc'lo r1 (by omega), hpc'hi]
        exact inv.pclt r1 (by omega)
    · -- pivot_one
      intro r hr
      dsimp only at hr ⊢
      by_cases hrlt : r < st.rank
      · rw [hpc'lo r hrlt,
          hm2keep r (by omega) _ (by have := inv.pclt r hrlt; omega) (hpivpc r hrlt),
          hm1low r hrlt]
        exact inv.pivot_one r hrlt
      · have : r = st.rank := by omega
        subst this
        rw [hpc'hi, hm2rank]
        exact hpr3
    · -- pivot_zero
      intro r hr r' hr' hne
      dsimp only at hr hr' ⊢
      by_cases hrlt : r < st.rank
      · rw [hpc'lo r hrlt]
        apply hm2zero r' hr' _ (by have := inv.pclt r hrlt; omega) ?_ (hpivpc r hrlt)
        rw [hm1get r']
        by_cases h1 : r' = pr
        · rw [if_pos h1]
          exact inv.pivot_zero r hrlt st.rank hrk (by omega)
        · rw [if_neg h1]
          by_cases h2 : r' = st.rank
          · rw [if_pos h2]
            exact inv.pivot_zero r hrlt pr hpr2 (by omega)
          · rw [if_neg h2]
            exact inv.pivot_zero r hrlt r' hr' hne
      · have : r = st.rank := by omega
        subst this
        rw [hpc'hi]
        exact hm2col r' hr' hne
    · -- below_zero
      intro r h1 h2 c hc
      dsimp only at h1 h2 ⊢
      by_cases hclt : c < col
      · exact hm2zero r h2 c (by omega) (hm1below r (by omega) h2 c hclt) (hpivlow c hclt)
      · have : c = col := by omega
        subst this
        exact hm2col r h2 (by omega)
    · -- row_low_zero
      intro r hr c hc
      dsimp only at hr hc ⊢
      by_cases hrlt : r < st.rank
      · rw [hpc'lo r hrlt] at hc
        have hcB : c ≤ B := by have := inv.pclt r hrlt; omega
        have hccol : c < col := by have := inv.pclt r hrlt; omega
        apply hm2zero r (by omega) c hcB ?_ (hpivlow c hccol)
        rw [hm1low r hrlt]
        exact inv.row_low_zero r hrlt c hc
      · have : r = st.rank := by omega
        subst this
        rw [hpc'hi] at hc
        rw [hm2rank]
        exact hpivlow c hc
    · -- sat_iff
      intro x
      dsimp only
      have h1 : matSat (elimOthers (swapRows st.matrix st.rank pr) st.rank col) B x
          ↔ matSat (swapRows st.matrix st.rank pr) B x := by
        apply matSat_elimOthers
        · intro r hr
          exact hm1rowlen r (by rw [← hm1len]; exact hr)
        · rw [hm1len]; exact hrk
      have h2 : matSat (swapRows st.matrix st.rank pr) B x ↔ matSat st.matrix B x :=
        matSat_swap hrkA hprA x
      rw [h1, h2]
      exact inv.sat_iff x

lemma elimInv_step {L B : Nat} {mat0 : List (List Bool)} {st : ElimState} {col : Nat}
    (inv : ElimInv L B mat0 st col) (hcol : col < B) :
    ElimInv L B mat0 (if st.rank < L then elimCol L st col else st) (col + 1) := by
  by_cases hrk : st.rank < L
  · rw [if_pos hrk]
    exact elimInv_elimCol inv hcol hrk
  · rw [if_neg hrk]
    refine ⟨inv.len, inv.rowlen, inv.pclen, inv.rankle,
      (fun r hr => Nat.lt_trans (inv.pclt r hr) (Nat.lt_succ_self col)), inv.pcmono,
      inv.pivot_one, inv.pivot_zero, ?_, inv.row_low_zero, inv.sat_iff⟩
    intro r h1 h2 c hc
    omega

lemma elimInv_fold {L B : Nat} {mat0 : List (List Bool)} :
    ∀ (n col : Nat) (st : ElimState), ElimInv L B mat0 st col → col + n ≤ B →
      ElimInv L B mat0
        ((List.range' col n).foldl
          (fun st c => if st.rank < L then elimCol L st c else st) st) (col + n) := by
  intro n
  induction n with
  | zero => intro col st inv _; simpa using inv
  | succ n ih =>
    intro col st inv hle
    rw [List.range'_succ, List.foldl_cons]
    have step := elimInv_step inv (by omega)
    have hrec := ih (col + 1) _ step (by omega)
    have harith : col + (n + 1) = (col + 1) + n := by omega
    rw [harith]
    exact hrec

lemma gaussElim_inv (m : Machine) :
    ElimInv m.target.length m.buttons.length (buildMatrix m)
      (gaussElim m) m.buttons.length := by
  unfold gaussElim
  have h := elimInv_fold m.buttons.length 0 ⟨buildMatrix m, 0, []⟩ (elimInv_init m)
    (by omega)
  rw [List.range_eq_range']
  simpa using h

/-! ## Back substitution -/

lemma pivotValue_congr {row sol1 sol2 : List Bool} {col B : Nat}
    (h : ∀ c, col + 1 ≤ c → c < B → sol1.getD c false = sol2.getD c false) :
    pivotValue row sol1 col B = pivotValue row sol2 col B := by
  unfold pivotValue
  apply foldl_ext
  intro v c hc
  rw [List.mem_range'] at hc
  obtain ⟨i, hi, rfl⟩ := hc
  rw [h (col + 1 + 1 * i) (by omega) (by omega)]

lemma backSubst_zero (mat : List (List Bool)) (B : Nat) (pc : List Nat) (sol : List Bool) :
    backSubst mat B pc 0 sol = sol := rfl

lemma backSubst_succ (mat : List (List Bool)) (B : Nat) (pc : List Nat) (r : Nat)
    (sol : List Bool) :
    backSubst mat B pc (r + 1) sol
      = backSubst mat B pc r
          (sol.set (pc.getD r 0) (pivotValue (mat.getD r []) sol (pc.getD r 0) B)) := rfl

lemma backSubst_length (mat : List (List Bool)) (B : Nat) (pc : List Nat) :
    ∀ (r : Nat) (sol : List Bool), (backSubst mat B pc r sol).length = sol.length := by
  intro r
  induction r with
  | zero => intro sol; rfl
  | succ r ih =>
    intro sol
    rw [backSubst_succ, ih, List.length_set]

lemma backSubst_spec (mat : List (List Bool)) (B : Nat) (pc : List Nat) (rank : Nat)
    (hmono : ∀ r1 r2, r1 < r2 → r2 < rank → pc.getD r1 0 < pc.getD r2 0)
    (hlt : ∀ r < rank, pc.getD r 0 < B) :
    ∀ (r : Nat), r ≤ rank → ∀ (sol : List Bool), sol.length = B →
      ((∀ c, (∀ r' < r, c ≠ pc.getD r' 0) →
        (backSubst mat B pc r sol).getD c false = sol.getD c false) ∧
      (∀ r' < r, (backSubst mat B pc r sol).getD (pc.getD r' 0) false
          = pivotValue (mat.getD r' []) (backSubst mat B pc r sol) (pc.getD r' 0) B)) := by
  intro r
  induction r with
  | zero =>
    intro _ sol _
    exact ⟨fun c _ => rfl, fun r' hr' => absurd hr' (Nat.not_lt_zero r')⟩
  | succ r ih =>
    intro hle sol hsol
    rw [backSubst_succ]
    have hsol'len :
        (sol.set (pc.getD r 0) (pivotValue (mat.getD r []) sol (pc.getD r 0) B)).length
          = B := by
      rw [List.length_set]; exact hsol
    obtain ⟨ih1, ih2⟩ := ih (by omega) _ hsol'len
    constructor
    · intro c hc
      rw [ih1 c (fun r' hr' => hc r' (by omega))]
      exact getD_set_ne _ _ _ _ _ (fun h => (hc r (by omega)) h.symm)
    · intro r' hr'
      by_cases hr'r : r' < r
      · exact ih2 r' hr'r
      · have hreq : r' = r := by omega
        subst hreq
        have hne : ∀ r'' < r', pc.getD r' 0 ≠ pc.getD r'' 0 := by
          intro r'' hr''
          have := hmono r'' r' hr'' (by omega)
          omega
        have hLHS : (backSubst mat B pc r'
              (sol.set (pc.getD r' 0) (pivotValue (mat.getD r' []) sol (pc.getD r' 0) B))).getD
              (pc.getD r' 0) false
            = pivotValue (mat.getD r' []) sol (pc.getD r' 0) B := by
          rw [ih1 (pc.getD r' 0) hne]
          exact getD_set_self _ _ _ _ (by rw [hsol]; exact hlt r' (by omega))
        rw [hLHS]
        apply pivotValue_congr
        intro c hc1 hc2
        rw [ih1 c (fun r'' hr'' => ?_)]
        · rw [getD_set_ne _ _ _ _ _ (fun h => by omega)]
        · have := hmono r'' r' hr'' (by omega)
          omega

/-! ## The free-variable assignment -/

lemma foldl_set_length (fv : List Nat) (mask : Nat) :
    ∀ (l : List Nat) (sol : List Bool),
      (l.foldl (fun s i => s.set (fv.getD i 0) (mask.testBit i)) sol).length
        = sol.length := by
  intro l
  induction l with
  | nil => intro sol; rfl
  | cons a t ih => intro sol; rw [List.foldl_cons, ih, List.length_set]

lemma initSolution_length (B : Nat) (fv : List Nat) (mask : Nat) :
    (initSolution B fv mask).length = B := by
  unfold initSolution
  rw [foldl_set_length, List.length_replicate]

lemma foldl_set_getD_not_mem (fv : List Nat) (mask : Nat) :
    ∀ (l : List Nat) (sol : List Bool) (c : Nat),
      (∀ i ∈ l, fv.getD i 0 ≠ c) →
      (l.foldl (fun s i => s.set (fv.getD i 0) (mask.testBit i)) sol).getD c false
        = sol.getD c false := by
  intro l
  induction l with
  | nil => intro sol c _; rfl
  | cons a t ih =>
    intro sol c h
    rw [List.foldl_cons, ih _ c (fun i hi => h i (List.mem_cons_of_mem _ hi)),
      getD_set_ne _ _ _ _ _ (h a (List.mem_cons_self _ _))]

lemma getD_mem_of_lt {l : List Nat} {i : Nat} (h : i < l.length) : l.getD i 0 ∈ l := by
  rw [List.getD_eq_getElem _ _ h]
  exact List.getElem_mem h

lemma initSolution_getD_fv (B : Nat) (fv : List Nat) (mask : Nat)
    (hnodup : fv.Nodup) (hlt : ∀ v ∈ fv, v < B) :
    ∀ (k : Nat), k ≤ fv.length → ∀ i, i < k →
      ((List.range k).foldl (fun s j => s.set (fv.getD j 0) (mask.testBit j))
          (List.replicate B false)).getD (fv.getD i 0) false
        = mask.testBit i := by
  intro k
  induction k with
  | zero => intro _ i hi; omega
  | succ k ih =>
    intro hk i hi
    rw [List.range_succ, List.foldl_append, List.foldl_cons, List.foldl_nil]
    by_cases hik : i = k
    · subst hik
      apply getD_set_self
      rw [foldl_set_length, List.length_replicate]
      exact hlt _ (getD_mem_of_lt (by omega))
    · rw [getD_set_ne]
      · exact ih (by omega) i (by omega)
      · intro h
        have hkl : k < fv.length := by omega
        have hil : i < fv.length := by omega
        rw [List.getD_eq_getElem _ _ hkl, List.getD_eq_getElem _ _ hil] at h
        exact hik ((hnodup.getElem_inj_iff.mp h).symm)

lemma initSolution_getD_at (B : Nat) (fv : List Nat) (mask : Nat)
    (hnodup : fv.Nodup) (hlt : ∀ v ∈ fv, v < B) {i : Nat} (hi : i < fv.length) :
    (initSolution B fv mask).getD (fv.getD i 0) false = mask.testBit i :=
  initSolution_getD_fv B fv mask hnodup hlt fv.length le_rfl i hi

lemma initSolution_getD_not_mem (B : Nat) (fv : List Nat) (mask : Nat) {c : Nat}
    (hc : c ∉ fv) : (initSolution B fv mask).getD c false = false := by
  unfold initSolution
  rw [foldl_set_getD_not_mem fv mask _ _ c ?_]
  · rw [List.getD_eq_getElem?_getD, List.getElem?_replicate]
    split <;> rfl
  · intro i hi h
    rw [List.mem_range] at hi
    exact hc (h ▸ getD_mem_of_lt hi)

lemma freeVarsOf_nodup (B : Nat) (pc : List Nat) : (freeVarsOf B pc).Nodup :=
  (List.nodup_range B).filter _

lemma mem_freeVarsOf {B : Nat} {pc : List Nat} {c : Nat} :
    c ∈ freeVarsOf B pc ↔ c < B ∧ c ∉ pc := by
  unfold freeVarsOf
  rw [List.mem_filter, List.mem_range]
  simp

lemma freeVarsOf_lt {B : Nat} {pc : List Nat} : ∀ v ∈ freeVarsOf B pc, v < B :=
  fun _ hv => (mem_freeVarsOf.mp hv).1

/-- The free-variable mask of an assignment (proof-side construction for the
completeness of the enumeration). -/
def maskOf (x : List Bool) : List Nat → Nat
  | [] => 0
  | c :: rest => (if x.getD c false then 1 else 0) + 2 * maskOf x rest

lemma maskOf_lt (x : List Bool) : ∀ (fv : List Nat), maskOf x fv < 2 ^ fv.length := by
  intro fv
  induction fv with
  | nil => simp [maskOf]
  | cons c rest ih =>
    simp only [maskOf, List.length_cons, pow_succ]
    cases hv : x.getD c false
    · simp only [hv, Bool.false_eq_true, if_false]
      omega
    · simp only [hv, if_true]
      omega

lemma maskOf_testBit (x : List Bool) :
    ∀ (fv : List Nat) (b : Nat),
      (maskOf x fv).testBit b
        = (decide (b < fv.length) && x.getD (fv.getD b 0) false) := by
  intro fv
  induction fv with
  | nil => intro b; simp [maskOf, Nat.zero_testBit]
  | cons c rest ih =>
    intro b
    cases b with
    | zero =>
      simp only [maskOf, List.length_cons, List.getD_cons_zero, Nat.testBit_zero]
      cases hv : x.getD c false
      · simp only [hv, Bool.false_eq_true, if_false, Bool.and_false]
        have h1 : (0 + 2 * maskOf x rest) % 2 = 0 := by omega
        simp [h1]
      · simp only [hv, if_true, Bool.and_true]
        have h1 : (1 + 2 * maskOf x rest) % 2 = 1 := by omega
        simp [h1]
    | succ b =>
      have step : maskOf x (c :: rest) / 2 = maskOf x rest := by
        simp only [maskOf]
        cases hv : x.getD c false
        · simp only [hv, Bool.false_eq_true, if_false]
          omega
        · simp only [hv, if_true]
          omega
      rw [Nat.testBit_succ, step, ih b]
      simp only [List.length_cons, List.getD_cons_succ]
      have hiff : b + 1 < rest.length + 1 ↔ b < rest.length := by omega
      simp [hiff]

/-! ## Bridging the augmented matrix to the lights semantics -/

lemma buildMatrix_length (m : Machine) : (buildMatrix m).length = m.target.length := by
  simp [buildMatrix]

lemma buildMatrix_row (m : Machine) {i : Nat} (hi : i < m.target.length) :
    (buildMatrix m).getD i []
      = ((List.range m.buttons.length).map (fun j => touches m j i))
        ++ [m.target.getD i false] := by
  unfold buildMatrix
  rw [getD_range_map _ _ _ _ hi]

lemma buildMatrix_coeff (m : Machine) {i : Nat} (hi : i < m.target.length)
    {c : Nat} (hc : c < m.buttons.length) :
    ((buildMatrix m).getD i []).getD c false = touches m c i := by
  rw [buildMatrix_row m hi, List.getD_append _ _ _ c (by simpa using hc),
    getD_range_map _ _ _ _ hc]

lemma buildMatrix_aug (m : Machine) {i : Nat} (hi : i < m.target.length) :
    ((buildMatrix m).getD i []).getD m.buttons.length false = m.target.getD i false := by
  rw [buildMatrix_row m hi, List.getD_eq_getElem?_getD]
  have hlen : ((List.range m.buttons.length).map (fun j => touches m j i)).length
      = m.buttons.length := by simp
  nth_rewrite 2 [← hlen]
  rw [List.getElem?_concat_length]
  rfl

lemma matSat_buildMatrix_iff (m : Machine) (x : List Bool) :
    matSat (buildMatrix m) m.buttons.length x ↔ LightsValid m x := by
  unfold matSat LightsValid
  rw [buildMatrix_length]
  have hrow : ∀ i, i < m.target.length →
      (rowSat ((buildMatrix m).getD i []) x m.buttons.length ↔
        ((List.range m.buttons.length).countP
            (fun j => x.getD j false && touches m j i)) % 2
          = (if m.target.getD i false then 1 else 0)) := by
    intro i hi
    unfold rowSat
    rw [buildMatrix_aug m hi]
    have hcnt : dotCount ((buildMatrix m).getD i []) x m.buttons.length
        = (List.range m.buttons.length).countP
            (fun j => x.getD j false && touches m j i) := by
      unfold dotCount
      apply List.countP_congr
      intro c hc
      rw [buildMatrix_coeff m hi (List.mem_range.mp hc)]
      cases x.getD c false <;> cases touches m c i <;> simp
    rw [hcnt]
  constructor
  · intro h i hi
    exact (hrow i hi).mp (h i hi)
  · intro h i hi
    exact (hrow i hi).mpr (h i hi)

/-! ## The enumerated solutions are exactly the solutions of the system -/

lemma countP_range_split {B pcr : Nat} (h : pcr < B) (p : Nat → Bool) :
    (List.range B).countP p
      = (List.range' 0 pcr).countP p + (if p pcr then 1 else 0)
        + (List.range' (pcr + 1) (B - (pcr + 1))).countP p := by
  rw [List.range_eq_range']
  have hsplit : List.range' 0 pcr ++ List.range' pcr (B - pcr) = List.range' 0 B := by
    have := List.range'_append 0 pcr (B - pcr) 1
    simp only [one_mul, Nat.zero_add] at this
    rw [this]
    congr 1
    omega
  rw [← hsplit, List.countP_append]
  have hcons : List.range' pcr (B - pcr) = pcr :: List.range' (pcr + 1) (B - (pcr + 1)) := by
    have hB : B - pcr = (B - (pcr + 1)) + 1 := by omega
    rw [hB, List.range'_succ]
  rw [hcons, List.countP_cons]
  by_cases hp : p pcr
  · simp [hp]
    omega
  · simp [hp]

lemma pivotValue_eq_flip (row sol : List Bool) (col B : Nat) :
    pivotValue row sol col B
      = (row.getD B false
          != (((List.range' (col + 1) (B - (col + 1))).countP
              (fun c => row.getD c false && sol.getD c false)) % 2 == 1)) := by
  unfold pivotValue
  exact foldl_flip _ _ _

lemma pivotValue_congr_weak {row sol1 sol2 : List Bool} {col B : Nat}
    (h : ∀ c, col + 1 ≤ c → c < B → row.getD c false = true →
      sol1.getD c false = sol2.getD c false) :
    pivotValue row sol1 col B = pivotValue row sol2 col B := by
  unfold pivotValue
  apply foldl_ext
  intro v c hc
  rw [List.mem_range'] at hc
  obtain ⟨i, hi, rfl⟩ := hc
  cases hrow : row.getD (col + 1 + 1 * i) false
  · simp
  · rw [h (col + 1 + 1 * i) (by omega) (by omega) hrow]

/-- On a row whose pivot coefficient is set and whose earlier coefficients are
all clear, satisfaction pins the pivot variable to `pivotValue`. -/
lemma rowSat_pivot_char {row y : List Bool} {B pcr : Nat}
    (hone : row.getD pcr false = true)
    (hlow : ∀ c, c < pcr → row.getD c false = false)
    (hB : pcr < B) :
    rowSat row y B ↔ y.getD pcr false = pivotValue row y pcr B := by
  unfold rowSat dotCount
  rw [countP_range_split hB (fun c => row.getD c false && y.getD c false)]
  have hzero : (List.range' 0 pcr).countP
      (fun c => row.getD c false && y.getD c false) = 0 := by
    rw [List.countP_eq_zero]
    intro c hc
    rw [List.mem_range'] at hc
    obtain ⟨i, hi, rfl⟩ := hc
    rw [hlow (0 + 1 * i) (by omega)]
    simp
  rw [hzero, hone, pivotValue_eq_flip]
  cases haug : row.getD B false <;>
    cases hy : y.getD pcr false <;>
      rcases Nat.mod_two_eq_zero_or_one ((List.range' (pcr + 1) (B - (pcr + 1))).countP
          (fun c => row.getD c false && y.getD c false)) with hcnt | hcnt <;>
        simp [hy, hcnt, Nat.add_mod] <;> omega

lemma mem_getD_iff {l : List Nat} {v : Nat} :
    v ∈ l ↔ ∃ i, i < l.length ∧ l.getD i 0 = v := by
  rw [List.mem_iff_getElem]
  constructor
  · rintro ⟨n, hn, he⟩
    exact ⟨n, hn, by rw [List.getD_eq_getElem _ _ hn]; exact he⟩
  · rintro ⟨n, hn, he⟩
    exact ⟨n, hn, by rw [← List.getD_eq_getElem _ _ hn]; exact he⟩

lemma maskSolution_length {L B : Nat} {mat0 : List (List Bool)} {st : ElimState}
    (inv : ElimInv L B mat0 st B) (mask : Nat) :
    (maskSolution st.matrix B st.rank st.pivotCol (freeVarsOf B st.pivotCol) mask).length
      = B := by
  unfold maskSolution
  rw [backSubst_length, initSolution_length]

lemma maskSolution_spec {L B : Nat} {mat0 : List (List Bool)} {st : ElimState}
    (inv : ElimInv L B mat0 st B) (mask : Nat) :
    ((∀ c, (∀ r' < st.rank, c ≠ st.pivotCol.getD r' 0) →
      (maskSolution st.matrix B st.rank st.pivotCol (freeVarsOf B st.pivotCol) mask).getD c false
        = (initSolution B (freeVarsOf B st.pivotCol) mask).getD c false) ∧
    (∀ r' < st.rank,
      (maskSolution st.matrix B st.rank st.pivotCol (freeVarsOf B st.pivotCol) mask).getD
          (st.pivotCol.getD r' 0) false
        = pivotValue (st.matrix.getD r' [])
            (maskSolution st.matrix B st.rank st.pivotCol (freeVarsOf B st.pivotCol) mask)
            (st.pivotCol.getD r' 0) B)) :=
  backSubst_spec st.matrix B st.pivotCol st.rank inv.pcmono (fun r hr => inv.pclt r hr)
    st.rank le_rfl (initSolution B (freeVarsOf B st.pivotCol) mask)
    (initSolution_length B (freeVarsOf B st.pivotCol) mask)

lemma maskSolution_free {L B : Nat} {mat0 : List (List Bool)} {st : ElimState}
    (inv : ElimInv L B mat0 st B) (mask : Nat) :
    ∀ i, i < (freeVarsOf B st.pivotCol).length →
      (maskSolution st.matrix B st.rank st.pivotCol (freeVarsOf B st.pivotCol) mask).getD
          ((freeVarsOf B st.pivotCol).getD i 0) false
        = mask.testBit i := by
  intro i hi
  have hmem : (freeVarsOf B st.pivotCol).getD i 0 ∈ freeVarsOf B st.pivotCol :=
    getD_mem_of_lt hi
  have hnotpc : (freeVarsOf B st.pivotCol).getD i 0 ∉ st.pivotCol :=
    (mem_freeVarsOf.mp hmem).2
  have hnp : ∀ r' < st.rank, (freeVarsOf B st.pivotCol).getD i 0 ≠ st.pivotCol.getD r' 0 := by
    intro r' hr' h
    apply hnotpc
    rw [h]
    exact getD_mem_of_lt (by rw [inv.pclen]; exact hr')
  rw [(maskSolution_spec inv mask).1 _ hnp]
  exact initSolution_getD_at B _ mask (freeVarsOf_nodup B st.pivotCol) freeVarsOf_lt hi

lemma maskSolution_sat {L B : Nat} {mat0 : List (List Bool)} {st : ElimState}
    (inv : ElimInv L B mat0 st B)
    (hcons : ∀ r, st.rank ≤ r → r < L → (st.matrix.getD r []).getD B false = false)
    (mask : Nat) :
    matSat st.matrix B
      (maskSolution st.matrix B st.rank st.pivotCol (freeVarsOf B st.pivotCol) mask) := by
  intro r hr
  have hrL : r < L := by rw [← inv.len]; exact hr
  by_cases hrk : r < st.rank
  · exact (rowSat_pivot_char (inv.pivot_one r hrk) (fun c hc => inv.row_low_zero r hrk c hc)
      (inv.pclt r hrk)).mpr ((maskSolution_spec inv mask).2 r hrk)
  · unfold rowSat
    have hdz : dotCount (st.matrix.getD r [])
        (maskSolution st.matrix B st.rank st.pivotCol (freeVarsOf B st.pivotCol) mask) B
        = 0 := by
      unfold dotCount
      rw [List.countP_eq_zero]
      intro c hc
      rw [inv.below_zero r (by omega) hrL c (List.mem_range.mp hc)]
      simp
    rw [hdz, hcons r (by omega) hrL]
    rfl

lemma maskSolution_complete {L B : Nat} {mat0 : List (List Bool)} {st : ElimState}
    (inv : ElimInv L B mat0 st B)
    (y : List Bool) (hylen : y.length = B) (hysat : matSat st.matrix B y) :
    y = maskSolution st.matrix B st.rank st.pivotCol (freeVarsOf B st.pivotCol)
        (maskOf y (freeVarsOf B st.pivotCol)) := by
  have hxlen := maskSolution_length inv (maskOf y (freeVarsOf B st.pivotCol))
  have hfree : ∀ c ∈ freeVarsOf B st.pivotCol,
      (maskSolution st.matrix B st.rank st.pivotCol (freeVarsOf B st.pivotCol)
        (maskOf y (freeVarsOf B st.pivotCol))).getD c false = y.getD c false := by
    intro c hc
    obtain ⟨i, hi, hgd⟩ := mem_getD_iff.mp hc
    rw [← hgd, maskSolution_free inv _ i hi, maskOf_testBit]
    simp [hi]
  apply List.ext_getElem (by rw [hylen, hxlen])
  intro c hc1 hc2
  rw [← List.getD_eq_getElem y false hc1, ← List.getD_eq_getElem _ false hc2]
  have hcB : c < B := by rw [← hylen]; exact hc1
  by_cases hcp : ∃ r, r < st.rank ∧ st.pivotCol.getD r 0 = c
  · obtain ⟨r, hr, hpc⟩ := hcp
    have hrL : r < L := by have := inv.rankle; omega
    have hy : y.getD c false = pivotValue (st.matrix.getD r []) y c B := by
      rw [← hpc]
      exact (rowSat_pivot_char (inv.pivot_one r hr)
        (fun c' hc' => inv.row_low_zero r hr c' hc') (inv.pclt r hr)).mp
        (hysat r (by rw [inv.len]; exact hrL))
    have hx : (maskSolution st.matrix B st.rank st.pivotCol (freeVarsOf B st.pivotCol)
        (maskOf y (freeVarsOf B st.pivotCol))).getD c false
        = pivotValue (st.matrix.getD r [])
            (maskSolution st.matrix B st.rank st.pivotCol (freeVarsOf B st.pivotCol)
              (maskOf y (freeVarsOf B st.pivotCol))) c B := by
      rw [← hpc]
      exact (maskSolution_spec inv _).2 r hr
    rw [hy, hx]
    apply pivotValue_congr_weak
    intro c' hc'1 hc'2 hrow
    have hc'fv : c' ∈ freeVarsOf B st.pivotCol := by
      apply mem_freeVarsOf.mpr
      refine ⟨hc'2, ?_⟩
      intro hmem
      obtain ⟨r'', hr'', hgd⟩ := mem_getD_iff.mp hmem
      rw [inv.pclen] at hr''
      by_cases hr''r : r'' = r
      · subst hr''r
        rw [hpc] at hgd
        omega
      · have := inv.pivot_zero r'' hr'' r hrL (fun h => hr''r h.symm)
        rw [hgd] at this
        rw [this] at hrow
        cases hrow
    exact (hfree c' hc'fv).symm
  · have hcfv : c ∈ freeVarsOf B st.pivotCol := by
      apply mem_freeVarsOf.mpr
      refine ⟨hcB, ?_⟩
      intro hmem
      obtain ⟨r, hrlen, hgd⟩ := mem_getD_iff.mp hmem
      rw [inv.pclen] at hrlen
      exact hcp ⟨r, hrlen, hgd⟩
    exact (hfree c hcfv).symm

/-! ## Assembly: the consistency check and the enumeration in solveMachineLights -/

lemma consistency_fail_no_solution (m : Machine)
    (hbad : (List.range' (gaussElim m).rank (m.target.length - (gaussElim m).rank)).any
      (fun row => ((gaussElim m).matrix.getD row []).getD m.buttons.length false) = true) :
    ¬ ∃ x : List Bool, LightsValid m x := by
  rintro ⟨x, hx⟩
  have inv := gaussElim_inv m
  obtain ⟨r, hrmem, hraug⟩ := List.any_eq_true.mp hbad
  obtain ⟨hr1, hr2⟩ := List.mem_range'_1.mp hrmem
  have hrk := inv.rankle
  have hrL : r < m.target.length := by omega
  have hsat : matSat (gaussElim m).matrix m.buttons.length x :=
    (inv.sat_iff x).mpr ((matSat_buildMatrix_iff m x).mpr hx)
  have hrs := hsat r (by rw [inv.len]; exact hrL)
  unfold rowSat at hrs
  have hdz : dotCount ((gaussElim m).matrix.getD r []) x m.buttons.length = 0 := by
    unfold dotCount
    rw [List.countP_eq_zero]
    intro c hc
    rw [inv.below_zero r hr1 hrL c (List.mem_range.mp hc)]
    simp
  rw [hdz, hraug] at hrs
  simp at hrs

lemma consistency_pass (m : Machine)
    (hok : (List.range' (gaussElim m).rank (m.target.length - (gaussElim m).rank)).any
      (fun row => ((gaussElim m).matrix.getD row []).getD m.buttons.length false) = false) :
    ∀ r, (gaussElim m).rank ≤ r → r < m.target.length →
      ((gaussElim m).matrix.getD r []).getD m.buttons.length false = false := by
  intro r h1 h2
  have hrk := (gaussElim_inv m).rankle
  have hmem : r ∈ List.range' (gaussElim m).rank (m.target.length - (gaussElim m).rank) :=
    List.mem_range'_1.mpr ⟨h1, by omega⟩
  have := List.any_eq_false.mp hok r hmem
  simpa using this

lemma maskSolution_lightsValid (m : Machine)
    (hok : (List.range' (gaussElim m).rank (m.target.length - (gaussElim m).rank)).any
      (fun row => ((gaussElim m).matrix.getD row []).getD m.buttons.length false) = false)
    (mask : Nat) :
    (maskSolution (gaussElim m).matrix m.buttons.length (gaussElim m).rank
      (gaussElim m).pivotCol (freeVarsOf m.buttons.length (gaussElim m).pivotCol) mask).length
      = m.buttons.length ∧
    LightsValid m (maskSolution (gaussElim m).matrix m.buttons.length (gaussElim m).rank
      (gaussElim m).pivotCol (freeVarsOf m.buttons.length (gaussElim m).pivotCol) mask) := by
  have inv := gaussElim_inv m
  refine ⟨maskSolution_length inv mask, ?_⟩
  exact (matSat_buildMatrix_iff m _).mp ((inv.sat_iff _).mp
    (maskSolution_sat inv (consistency_pass m hok) mask))

lemma lightsValid_eq_maskSolution (m : Machine) (x : List Bool)
    (hxlen : x.length = m.buttons.length) (hx : LightsValid m x) :
    x = maskSolution (gaussElim m).matrix m.buttons.length (gaussElim m).rank
      (gaussElim m).pivotCol (freeVarsOf m.buttons.length (gaussElim m).pivotCol)
      (maskOf x (freeVarsOf m.buttons.length (gaussElim m).pivotCol)) := by
  have inv := gaussElim_inv m
  exact maskSolution_complete inv x hxlen
    ((inv.sat_iff x).mpr ((matSat_buildMatrix_iff m x).mpr hx))

lemma solveMachineLights_eq (m : Machine) :
    solveMachineLights m =
      if (List.range' (gaussElim m).rank (m.target.length - (gaussElim m).rank)).any
          (fun row => ((gaussElim m).matrix.getD row []).getD m.buttons.length false) then -1
      else
        match ((List.range
            (2 ^ (freeVarsOf m.buttons.length (gaussElim m).pivotCol).length)).map
          (fun mask => (maskSolution (gaussElim m).matrix m.buttons.length (gaussElim m).rank
            (gaussElim m).pivotCol (freeVarsOf m.buttons.length (gaussElim m).pivotCol)
            mask).countP id)).min? with
        | some w => (w : Int)
        | none => -1 := rfl

/-- C1: for every machine, `solveMachineLights` returns `-1` exactly when no
boolean press assignment over the buttons toggles the lights to the target
pattern, and every non-negative value `w` it returns is both achieved by a
satisfying assignment of weight `w` and a lower bound on the weight of every
satisfying assignment — that is, the minimum number of buttons pressed an odd
number of times. -/
theorem lights_minimum (m : Machine) :
    (solveMachineLights m = -1 ↔
      ¬ ∃ x : List Bool, x.length = m.buttons.length ∧ LightsValid m x) ∧
    (∀ w : Nat, solveMachineLights m = (w : Int) →
      (∃ x : List Bool, x.length = m.buttons.length ∧ LightsValid m x ∧ x.countP id = w) ∧
      (∀ x : List Bool, x.length = m.buttons.length → LightsValid m x → w ≤ x.countP id)) := by
  cases hchk : (List.range' (gaussElim m).rank (m.target.length - (gaussElim m).rank)).any
      (fun row => ((gaussElim m).matrix.getD row []).getD m.buttons.length false) with
  | true =>
    have hres : solveMachineLights m = -1 := by
      rw [solveMachineLights_eq, hchk]
      rfl
    refine ⟨?_, ?_⟩
    · rw [hres]
      constructor
      · intro _
        rintro ⟨x, _, hx⟩
        exact consistency_fail_no_solution m hchk ⟨x, hx⟩
      · intro _
        rfl
    · intro w hw
      rw [hres] at hw
      exact absurd hw (by omega)
  | false =>
    set weights := (List.range
        (2 ^ (freeVarsOf m.buttons.length (gaussElim m).pivotCol).length)).map
      (fun mask => (maskSolution (gaussElim m).matrix m.buttons.length (gaussElim m).rank
        (gaussElim m).pivotCol (freeVarsOf m.buttons.length (gaussElim m).pivotCol)
        mask).countP id) with hweights
    have hnonempty : weights ≠ [] := by
      intro hnil
      have hlen := congrArg List.length hnil
      rw [hweights] at hlen
      simp only [List.length_map, List.length_range, List.length_nil] at hlen
      have h2 := Nat.two_pow_pos (freeVarsOf m.buttons.length (gaussElim m).pivotCol).length
      omega
    obtain ⟨w0, hw0⟩ : ∃ w0, weights.min? = some w0 := by
      cases hmin : weights.min? with
      | none => exact absurd (List.min?_eq_none_iff.mp hmin) hnonempty
      | some w0 => exact ⟨w0, rfl⟩
    have hres : solveMachineLights m = (w0 : Int) := by
      rw [solveMachineLights_eq, hchk]
      simp only [Bool.false_eq_true, if_false]
      rw [← hweights, hw0]
    obtain ⟨hw0mem, hw0le⟩ := (List.min?_eq_some_iff (fun a => Nat.le_refl a)
      (fun a b => min_choice a b) (fun a b c => Nat.le_min)).mp hw0
    refine ⟨?_, ?_⟩
    · rw [hres]
      constructor
      · intro h
        exact absurd h (by omega)
      · intro hno
        exfalso
        exact hno ⟨_, (maskSolution_lightsValid m hchk 0).1,
          (maskSolution_lightsValid m hchk 0).2⟩
    · intro w hw
      have hww : w = w0 := by
        rw [hres] at hw
        omega
      subst hww
      refine ⟨?_, ?_⟩
      · rw [hweights] at hw0mem
        obtain ⟨mask, hmaskmem, hmaskeq⟩ := List.mem_map.mp hw0mem
        exact ⟨_, (maskSolution_lightsValid m hchk mask).1,
          (maskSolution_lightsValid m hchk mask).2, hmaskeq⟩
      · intro x hxlen hx
        have hxeq := lightsValid_eq_maskSolution m x hxlen hx
        have hmaskmem : maskOf x (freeVarsOf m.buttons.length (gaussElim m).pivotCol)
            ∈ List.range
              (2 ^ (freeVarsOf m.buttons.length (gaussElim m).pivotCol).length) :=
          List.mem_range.mpr (maskOf_lt x _)
        have hcmem : x.countP id ∈ weights := by
          rw [hweights]
          apply List.mem_map.mpr
          exact ⟨_, hmaskmem, by rw [← hxeq]⟩
        exact hw0le _ hcmem

/-- Witness for C1: on the one-light one-button machine the solver returns 1,
so an odd press of the single button hits the target and no lighter
assignment does. -/
theorem lights_minimum_witness :
    (∃ x : List Bool, x.length = (Machine.mk [true] [[0]] []).buttons.length ∧
      LightsValid (Machine.mk [true] [[0]] []) x ∧ x.countP id = 1) ∧
    (∀ x : List Bool, x.length = (Machine.mk [true] [[0]] []).buttons.length →
      LightsValid (Machine.mk [true] [[0]] []) x → 1 ≤ x.countP id) :=
  (lights_minimum (Machine.mk [true] [[0]] [])).2 1 (by decide)
